import Mathlib

/-
  Verification of the @aikotools/datafilter rule-matching engine.

  The development shallowly embeds the engine's source:
  * `getValueFromPath`, `pathExists`      (src/utils/ObjectAccess.ts)
  * `FilterEngine.evaluateCriterion` and the individual check functions,
    including `deepEqual`                 (src/engine/FilterEngine.ts)
  * `Matcher.matchFile`, `Matcher.filterFiles` (strict walk),
    `Matcher.filterFilesOptionalMode`, `Matcher.filterFilesWithGroups`
                                          (src/matcher/Matcher.ts)
  * the top-level `filterFiles` request entry point (src/index.ts)

  Data values are JSON trees (the engine consumes parsed JSON files), so
  numbers are modelled as integers and the JavaScript `undefined` sentinel
  only appears as the absence of a value (`Option Json`), never as a leaf.
  The luxon `DateTime.fromISO` parser is an external collaborator of the
  engine and is modelled as a parameter `fromISO : String → Option Int`
  mapping a string to an epoch instant when it is a valid ISO timestamp
  (JavaScript relational operators on luxon DateTimes compare instants).
-/

set_option maxHeartbeats 1000000

/- The tree shape of parsed JSON data. -/
inductive Json where
  | null : Json
  | bool : Bool → Json
  | num : Int → Json
  | str : String → Json
  | arr : List Json → Json
  | obj : List (String × Json) → Json
deriving Repr

/- A path element is an object key (string) or an array index (number),
   as in src/core/types.ts. -/
inductive PathElement where
  | str : String → PathElement
  | num : Int → PathElement
deriving Repr, DecidableEq

/- Decimal digits of a natural number, most significant first
   (mirrors the output of JavaScript `String(n)` for a natural n). -/
def natDigits (n : Nat) : List Nat :=
  if h : n < 10 then [n] else natDigits (n / 10) ++ [n % 10]
termination_by n
decreasing_by
  exact Nat.div_lt_self (by omega) (by omega)

/- JavaScript `String(n)` for a natural number. -/
def natToString (n : Nat) : String :=
  String.mk ((natDigits n).map (fun d => Char.ofNat (48 + d)))

/- JavaScript `String(n)` for an integer. -/
def intToString (n : Int) : String :=
  if n < 0 then "-" ++ natToString n.natAbs else natToString n.toNat

/- JavaScript `String(segment)` on a path element. -/
def pathElementToString : PathElement → String
  | .str s => s
  | .num n => intToString n

/- JavaScript `parseInt(s, 10)`: skip leading whitespace, optional sign,
   then the longest run of leading decimal digits; NaN (none) if that run
   is empty. -/
def parseDigits (cs : List Char) : Option Nat :=
  let ds := cs.takeWhile Char.isDigit
  if ds.isEmpty then none
  else some (ds.foldl (fun a c => a * 10 + (c.toNat - 48)) 0)

def parseIntJS (s : String) : Option Int :=
  let cs := s.data.dropWhile (fun c => c = ' ' ∨ c = '\t' ∨ c = '\n' ∨ c = '\r')
  match cs with
  | '-' :: rest => (parseDigits rest).map (fun n => -(n : Int))
  | '+' :: rest => (parseDigits rest).map (fun n => (n : Int))
  | _ => (parseDigits cs).map (fun n => (n : Int))

/- JavaScript `typeof` on a JSON value (typeof null is "object"). -/
def typeOf : Json → String
  | .null => "object"
  | .bool _ => "boolean"
  | .num _ => "number"
  | .str _ => "string"
  | .arr _ => "object"
  | .obj _ => "object"

/- `Object.keys`: for an array the canonical index strings, for an object
   its own keys. -/
def jsKeys : Json → List String
  | .arr xs => (List.range xs.length).map natToString
  | .obj kvs => kvs.map Prod.fst
  | _ => []

/- JavaScript own-property access `a[k]` with a string key.  The own
   properties of an array are the canonical decimal forms of its in-bounds
   indices together with its (non-enumerable) `length` property, whose value
   is the element count; the own properties of an object are its keys.
   Every other bracket lookup on parsed-JSON data falls through to the
   prototype chain: all inherited members of such values except the
   `__proto__` accessor are functions, and a function compares unequal to
   every JSON value under `deepEqual`, exactly as absence (`none`) does
   here.  The `__proto__` accessor, which yields `Object.prototype` or
   `Array.prototype`, is the one bracket lookup on JSON data outside this
   model; the deep-equality theorems below therefore restrict to values
   whose objects do not use `__proto__` as a key (see `cleanJson`). -/
def jsProp : Json → String → Option Json
  | .arr xs, k =>
      if k = "length" then some (.num (xs.length : Int))
      else
        match (List.range xs.length).find? (fun i => natToString i = k) with
        | some i => xs.get? i
        | none => none
  | .obj kvs, k => (kvs.find? (fun p => p.1 = k)).map Prod.snd
  | _, _ => none

mutual

/- Structural weight of a JSON value, used as the termination measure of
   `deepEqual`: every scalar weighs 1 regardless of magnitude, so the
   number stored in the `length` property of an array always weighs
   strictly less than the array itself (which `sizeOf` cannot guarantee,
   the default weight of an integer grows with the integer). -/
def jsize : Json → Nat
  | .null => 1
  | .bool _ => 1
  | .num _ => 1
  | .str _ => 1
  | .arr xs => 2 + jsizeL xs
  | .obj kvs => 2 + jsizeKV kvs
termination_by j => (sizeOf j, 1)

def jsizeL : List Json → Nat
  | [] => 0
  | x :: xs => 1 + jsize x + jsizeL xs
termination_by xs => (sizeOf xs, 0)

def jsizeKV : List (String × Json) → Nat
  | [] => 0
  | p :: kvs => 1 + jsize p.2 + jsizeKV kvs
termination_by kvs => (sizeOf kvs, 0)
decreasing_by
  · refine Prod.Lex.left _ _ ?_
    cases p with
    | mk k v => simp only [Prod.mk.sizeOf_spec, List.cons.sizeOf_spec]; omega
  · refine Prod.Lex.left _ _ ?_
    simp only [List.cons.sizeOf_spec]; omega

end

mutual

/- FilterEngine.deepEqual from src/engine/FilterEngine.ts.  The JavaScript
   source short-circuits on reference identity (`a === b`); for pure JSON
   values that fast path coincides with the structural comparison below, so
   it is not modelled separately.  Two values of different runtime type are
   unequal; two arrays compare by length and pairwise elements; any other
   pair of `typeof === 'object'` values (object/object, and the
   array/object mixed cases) compares via `Object.keys`; anything else is
   primitive equality. -/
def deepEqual (a b : Json) : Bool :=
  match a, b with
  | .null, .null => true
  | .null, _ => false
  | _, .null => false
  | .bool x, .bool y => x = y
  | .num x, .num y => x = y
  | .str x, .str y => x = y
  | .arr xs, .arr ys => xs.length = ys.length && deepEqualList xs ys
  | .arr xs, .obj kvs =>
      (jsKeys (.arr xs)).length = (jsKeys (.obj kvs)).length &&
      (jsKeys (.arr xs)).all (fun k => deepEqualProp (.arr xs) (.obj kvs) k)
  | .obj kvs, .arr ys =>
      (jsKeys (.obj kvs)).length = (jsKeys (.arr ys)).length &&
      (jsKeys (.obj kvs)).all (fun k => deepEqualProp (.obj kvs) (.arr ys) k)
  | .obj akvs, .obj bkvs =>
      (jsKeys (.obj akvs)).length = (jsKeys (.obj bkvs)).length &&
      (jsKeys (.obj akvs)).all (fun k => deepEqualProp (.obj akvs) (.obj bkvs) k)
  | _, _ => false
termination_by (jsize a, 1)
decreasing_by
  · refine Prod.Lex.left _ _ ?_
    simp only [jsize, jsizeL]
    omega
  · exact Prod.Lex.right _ (by omega)
  · exact Prod.Lex.right _ (by omega)
  · exact Prod.Lex.right _ (by omega)

/- `a.every((val, idx) => deepEqual(val, b[idx]))`, evaluated under the
   length guard; out-of-range access yields `undefined`, which is unequal
   to any defined value. -/
def deepEqualList (xs ys : List Json) : Bool :=
  match xs, ys with
  | [], _ => true
  | _ :: _, [] => false
  | x :: xs', y :: ys' => deepEqual x y && deepEqualList xs' ys'
termination_by (jsizeL xs, 0)
decreasing_by
  · refine Prod.Lex.left _ _ ?_
    simp only [jsizeL]
    omega
  · refine Prod.Lex.left _ _ ?_
    simp only [jsizeL]
    omega

/- `deepEqual(a[k], b[k])` on possibly-absent properties: `undefined`
   equals only `undefined`. -/
def deepEqualProp (a b : Json) (k : String) : Bool :=
  match h : jsProp a k, jsProp b k with
  | none, none => true
  | none, some _ => false
  | some _, none => false
  | some x, some y => deepEqual x y
termination_by (jsize a, 0)
decreasing_by
  refine Prod.Lex.left _ _ ?_
  have hmemL : ∀ (l : List Json), ∀ z ∈ l, jsize z ≤ jsizeL l := by
    intro l
    induction l with
    | nil => intro z hz; simp at hz
    | cons y ys ih =>
        intro z hz
        rw [jsizeL]
        rcases List.mem_cons.mp hz with rfl | hz
        · omega
        · have := ih z hz; omega
  cases a with
  | arr xs =>
      simp only [jsProp] at h
      by_cases hl : k = "length"
      · rw [if_pos hl] at h
        have hv : x = .num (xs.length : Int) := (Option.some.inj h).symm
        subst hv
        simp only [jsize]
        omega
      · rw [if_neg hl] at h
        cases hf : (List.range xs.length).find? (fun i => natToString i = k) with
        | none => simp [hf] at h
        | some i =>
            simp only [hf] at h
            have hv : x ∈ xs := List.get?_mem h
            have := hmemL xs x hv
            simp only [jsize]
            omega
  | obj kvs =>
      simp only [jsProp] at h
      cases hf : kvs.find? (fun p => p.1 = k) with
      | none => simp [hf] at h
      | some p =>
          simp only [hf, Option.map_some'] at h
          have hp : p ∈ kvs := List.mem_of_find?_eq_some hf
          have hv : x = p.2 := (Option.some.inj h).symm
          have hle : ∀ (l : List (String × Json)), ∀ q ∈ l,
              jsize q.2 ≤ jsizeKV l := by
            intro l
            induction l with
            | nil => intro q hq; simp at hq
            | cons r rs ih =>
                intro q hq
                rw [jsizeKV]
                rcases List.mem_cons.mp hq with rfl | hq
                · omega
                · have := ih q hq; omega
          have := hle kvs p hp
          rw [hv]
          simp only [jsize]
          omega
  | null => simp [jsProp] at h
  | bool b => simp [jsProp] at h
  | num n => simp [jsProp] at h
  | str s => simp [jsProp] at h

end

mutual

/- Well-formed JSON values: the image of actual JavaScript/JSON data in
   the `Json` type.  JavaScript objects cannot carry duplicate keys, so a
   list-of-pairs representation is well formed when every object level has
   pairwise distinct keys. -/
def wfJson : Json → Bool
  | .arr xs => wfList xs
  | .obj kvs => decide ((kvs.map Prod.fst).Nodup) && wfKV kvs
  | _ => true
termination_by j => (sizeOf j, 1)

def wfList : List Json → Bool
  | [] => true
  | x :: xs => wfJson x && wfList xs
termination_by xs => (sizeOf xs, 0)

def wfKV : List (String × Json) → Bool
  | [] => true
  | p :: kvs => wfJson p.2 && wfKV kvs
termination_by kvs => (sizeOf kvs, 0)
decreasing_by
  · refine Prod.Lex.left _ _ ?_
    cases p with
    | mk k v => simp only [Prod.mk.sizeOf_spec, List.cons.sizeOf_spec]; omega
  · refine Prod.Lex.left _ _ ?_
    simp only [List.cons.sizeOf_spec]; omega

end

mutual

/- JSON values none of whose objects use `length` or `__proto__` as a key.
   On such data every bracket lookup that `deepEqual` performs is an
   own-property access: the keys it looks up are own keys of one operand,
   hence never `length` on the other operand when that operand is an array
   (array index strings consist of digits only), and never the inherited
   `__proto__` accessor, the one lookup on JSON data that `jsProp` does not
   represent.  The deep-equality symmetry and key-set theorems below are
   scoped to clean values. -/
def cleanJson : Json → Bool
  | .arr xs => cleanList xs
  | .obj kvs =>
      kvs.all (fun p => !(p.1 == "length") && !(p.1 == "__proto__")) &&
      cleanKV kvs
  | _ => true
termination_by j => (sizeOf j, 1)

def cleanList : List Json → Bool
  | [] => true
  | x :: xs => cleanJson x && cleanList xs
termination_by xs => (sizeOf xs, 0)

def cleanKV : List (String × Json) → Bool
  | [] => true
  | p :: kvs => cleanJson p.2 && cleanKV kvs
termination_by kvs => (sizeOf kvs, 0)
decreasing_by
  · refine Prod.Lex.left _ _ ?_
    cases p with
    | mk k v => simp only [Prod.mk.sizeOf_spec, List.cons.sizeOf_spec]; omega
  · refine Prod.Lex.left _ _ ?_
    simp only [List.cons.sizeOf_spec]; omega

end

/- Result of `getValueFromPath` (src/utils/ObjectAccess.ts).  `value` is
   `none` when the JavaScript result would be `undefined`. -/
structure AccessResult where
  value : Option Json
  found : Bool
  error : Option String
  validPath : List PathElement
deriving Repr

/- The traversal loop of `getValueFromPath`, with `valid` accumulating the
   successfully resolved steps.  Mirrors the source order: null check,
   array access (with `parseInt` coercion of string segments and the bounds
   check), object access (with `String(segment)` key coercion), and the
   primitive-type failure.  The source's early return for the empty path
   coincides with the loop-exit return. -/
def getValueLoop : Json → List PathElement → List PathElement → AccessResult
  | current, [], valid => ⟨some current, true, none, valid⟩
  | current, seg :: rest, valid =>
    match current with
    | .null =>
        ⟨none, false,
         some ("Cannot read property '" ++ pathElementToString seg ++ "' of null"), valid⟩
    | .arr xs =>
        match (match seg with
               | .num n => some n
               | .str s => parseIntJS s : Option Int) with
        | none =>
            ⟨none, false,
             some ("Array index must be a number, got '" ++
                   pathElementToString seg ++ "'"), valid⟩
        | some index =>
            if h : index < 0 ∨ (xs.length : Int) ≤ index then
              ⟨none, false,
               some ("Array index " ++ intToString index ++
                     " out of bounds (length: " ++ natToString xs.length ++ ")"), valid⟩
            else
              getValueLoop (xs.get ⟨index.toNat, by omega⟩) rest (valid ++ [.num index])
    | .obj kvs =>
        match kvs.find? (fun p => p.1 = pathElementToString seg) with
        | some p => getValueLoop p.2 rest (valid ++ [.str (pathElementToString seg)])
        | none =>
            ⟨none, false,
             some ("Property '" ++ pathElementToString seg ++ "' does not exist"), valid⟩
    | cur =>
        ⟨none, false,
         some ("Cannot access property '" ++ pathElementToString seg ++
               "' of primitive type " ++ typeOf cur), valid⟩

/- getValueFromPath from src/utils/ObjectAccess.ts. -/
def getValueFromPath (object : Json) (path : List PathElement) : AccessResult :=
  getValueLoop object path []

/- pathExists from src/utils/ObjectAccess.ts. -/
def pathExists (object : Json) (path : List PathElement) : Bool :=
  let result := getValueFromPath object path
  result.found && result.value.isSome

/- Structured failure reason of a check.  The source attaches further
   diagnostic payload fields (expected/actual values, bounds, item) to some
   reasons; only the message and the path, which the specification's claims
   reference, are modelled. -/
structure Reason where
  message : String
  path : Option (List PathElement)
deriving Repr

/- FilterCheckResult from src/core/types.ts. -/
structure FilterCheckResult where
  status : Bool
  checkType : String
  reason : Option Reason
deriving Repr

/- The comparator of CheckArraySize. -/
inductive SizeComparator where
  | equal | lessThan | greaterThan
deriving Repr, DecidableEq

/- The closed union of check shapes from src/core/types.ts: CheckValue,
   CheckExists, CheckArrayElement, CheckArraySize, CheckTimeRange,
   CheckNumericRange, CheckOneOf. -/
inductive Check where
  | value (expected : Json)
  | existsC (expected : Bool)
  | arrayElement (itemExists : Bool) (item : Json)
  | arraySize (type : SizeComparator) (size : Int)
  | timeRange (min max : String)
  | numericRange (min max : Int)
  | oneOf (allowed : List Json)
deriving Repr

/- FilterCriterion from src/core/types.ts. -/
structure FilterCriterion where
  path : List PathElement
  check : Check
deriving Repr

namespace FilterEngine

/- FilterEngine.checkValue. -/
def checkValue (data : Json) (path : List PathElement) (expected : Json) :
    FilterCheckResult :=
  let ar := getValueFromPath data path
  if ar.found = false then
    ⟨false, "checkValue", some ⟨ar.error.getD "Path not found", some path⟩⟩
  else
    match ar.value with
    | some actual =>
        if deepEqual actual expected then ⟨true, "checkValue", none⟩
        else ⟨false, "checkValue", some ⟨"Value mismatch", some path⟩⟩
    | none => ⟨false, "checkValue", some ⟨"Value mismatch", some path⟩⟩

/- FilterEngine.checkExists: `exists = found && value !== undefined`,
   compared against the expected flag; an unresolved path therefore
   satisfies an `exists: false` check. -/
def checkExists (data : Json) (path : List PathElement) (expected : Bool) :
    FilterCheckResult :=
  let ar := getValueFromPath data path
  let ex := ar.found && ar.value.isSome
  if expected = ex then ⟨true, "checkExists", none⟩
  else
    ⟨false, "checkExists",
     some ⟨(if expected then
              "Path should exist but doesn't: " ++ ar.error.getD "undefined"
            else "Path should not exist but does"), some path⟩⟩

/- FilterEngine.checkArrayElement. -/
def checkArrayElement (data : Json) (path : List PathElement)
    (itemExists : Bool) (item : Json) : FilterCheckResult :=
  let ar := getValueFromPath data path
  if ar.found = false then
    ⟨false, "checkArrayElement", some ⟨ar.error.getD "Path not found", some path⟩⟩
  else
    match ar.value with
    | some (.arr xs) =>
        let fnd := xs.any (fun elem => deepEqual elem item)
        if itemExists = fnd then ⟨true, "checkArrayElement", none⟩
        else
          ⟨false, "checkArrayElement",
           some ⟨(if itemExists then "Item should exist in array but doesn't"
                  else "Item should not exist in array but does"), some path⟩⟩
    | _ => ⟨false, "checkArrayElement", some ⟨"Value is not an array", some path⟩⟩

/- FilterEngine.checkArraySize. -/
def checkArraySize (data : Json) (path : List PathElement)
    (type : SizeComparator) (size : Int) : FilterCheckResult :=
  let ar := getValueFromPath data path
  if ar.found = false then
    ⟨false, "checkArraySize", some ⟨ar.error.getD "Path not found", some path⟩⟩
  else
    match ar.value with
    | some (.arr xs) =>
        let passes : Bool :=
          match type with
          | .equal => (xs.length : Int) = size
          | .lessThan => (xs.length : Int) < size
          | .greaterThan => size < (xs.length : Int)
        if passes then ⟨true, "checkArraySize", none⟩
        else
          ⟨false, "checkArraySize",
           some ⟨(match type with
                  | .equal => "Array length should be " ++ intToString size ++
                              " but is " ++ natToString xs.length
                  | .lessThan => "Array length should be less than " ++ intToString size ++
                                 " but is " ++ natToString xs.length
                  | .greaterThan => "Array length should be greater than " ++ intToString size ++
                                    " but is " ++ natToString xs.length), some path⟩⟩
    | _ => ⟨false, "checkArraySize", some ⟨"Value is not an array", some path⟩⟩

/- FilterEngine.checkTimeRange.  A numeric resolved value is compared
   against `parseInt` of both bounds; a string resolved value and both
   bounds go through the external ISO parser (luxon `DateTime.fromISO`,
   modelled by `fromISO`; JavaScript compares DateTime objects by their
   epoch instant); any other runtime type fails. -/
def checkTimeRange (fromISO : String → Option Int) (data : Json)
    (path : List PathElement) (min max : String) : FilterCheckResult :=
  let ar := getValueFromPath data path
  if ar.found = false then
    ⟨false, "checkTimeRange", some ⟨ar.error.getD "Path not found", some path⟩⟩
  else
    match ar.value with
    | some (.num value) =>
        match parseIntJS min, parseIntJS max with
        | some mn, some mx =>
            if mn ≤ value ∧ value ≤ mx then ⟨true, "checkTimeRange", none⟩
            else
              ⟨false, "checkTimeRange",
               some ⟨"Timestamp " ++ intToString value ++ " is outside range [" ++
                     intToString mn ++ ", " ++ intToString mx ++ "]", some path⟩⟩
        | _, _ =>
            ⟨false, "checkTimeRange", some ⟨"Min or max is not a valid number", none⟩⟩
    | some (.str s) =>
        match fromISO s with
        | none =>
            ⟨false, "checkTimeRange", some ⟨"Invalid timestamp: " ++ s, some path⟩⟩
        | some ts =>
            match fromISO min, fromISO max with
            | some mnt, some mxt =>
                if mnt ≤ ts ∧ ts ≤ mxt then ⟨true, "checkTimeRange", none⟩
                else
                  ⟨false, "checkTimeRange",
                   some ⟨"Timestamp " ++ s ++ " is outside range [" ++ min ++
                         ", " ++ max ++ "]", some path⟩⟩
            | _, _ =>
                ⟨false, "checkTimeRange", some ⟨"Invalid min or max time", none⟩⟩
    | some other =>
        ⟨false, "checkTimeRange",
         some ⟨"Timestamp must be a string or number, got " ++ typeOf other, some path⟩⟩
    | none =>
        ⟨false, "checkTimeRange",
         some ⟨"Timestamp must be a string or number, got undefined", some path⟩⟩

/- FilterEngine.checkNumericRange. -/
def checkNumericRange (data : Json) (path : List PathElement)
    (min max : Int) : FilterCheckResult :=
  let ar := getValueFromPath data path
  if ar.found = false then
    ⟨false, "checkNumericRange", some ⟨ar.error.getD "Path not found", some path⟩⟩
  else
    match ar.value with
    | some (.num value) =>
        if min ≤ value ∧ value ≤ max then ⟨true, "checkNumericRange", none⟩
        else
          ⟨false, "checkNumericRange",
           some ⟨"Value " ++ intToString value ++ " is outside range [" ++
                 intToString min ++ ", " ++ intToString max ++ "]", some path⟩⟩
    | some other =>
        ⟨false, "checkNumericRange",
         some ⟨"Value must be a number, got " ++ typeOf other, some path⟩⟩
    | none =>
        ⟨false, "checkNumericRange",
         some ⟨"Value must be a number, got undefined", some path⟩⟩

/- FilterEngine.evaluateCriterion.  The source dispatches on which fields
   are present on the check object: 'value', then 'exists', then
   'itemExists' && 'item', then 'type' && 'size', then 'min' && 'max'
   (numeric bounds go to checkNumericRange, any other to checkTimeRange).
   A CheckOneOf value carries only the field `oneOf`, which matches none of
   these guards, so it falls through to the unknown-check return (whose
   reason embeds a JSON serialization of the check; the serialized text is
   not modelled). -/
def evaluateCriterion (fromISO : String → Option Int) (data : Json)
    (criterion : FilterCriterion) : FilterCheckResult :=
  match criterion.check with
  | .value expected => checkValue data criterion.path expected
  | .existsC expected => checkExists data criterion.path expected
  | .arrayElement itemExists item => checkArrayElement data criterion.path itemExists item
  | .arraySize type size => checkArraySize data criterion.path type size
  | .numericRange mn mx => checkNumericRange data criterion.path mn mx
  | .timeRange mn mx => checkTimeRange fromISO data criterion.path mn mx
  | .oneOf _ => ⟨false, "unknown", some ⟨"Unknown check type", none⟩⟩

end FilterEngine

/- SingleMatchRule from src/core/types.ts (`match` criteria, expected
   identifier, optional flag defaulting to false, info bag). -/
structure SingleMatchRule where
  match_ : List FilterCriterion
  expected : String
  optional : Bool := false
  info : Option Json := none
deriving Repr

/- WildcardMatchRule from src/core/types.ts (`matchAny` criteria, greedy
   flag defaulting to false; the `optional` field of a wildcard rule is
   fixed to `true` by its type and is represented implicitly). -/
structure WildcardMatchRule where
  matchAny : List FilterCriterion
  greedy : Bool := false
  info : Option Json := none
deriving Repr

/- MatchRule = SingleMatchRule | WildcardMatchRule. -/
inductive MatchRule where
  | single (r : SingleMatchRule)
  | wildcard (w : WildcardMatchRule)
deriving Repr

/- isSingleMatchRule / isWildcardRule type guards. -/
def isSingleMatchRule : MatchRule → Bool
  | .single _ => true
  | .wildcard _ => false

def isWildcardRule : MatchRule → Bool
  | .single _ => false
  | .wildcard _ => true

/- `rule.optional`: the optional flag of a single rule; always true on a
   wildcard rule (its type pins the field to `true`). -/
def ruleOptional : MatchRule → Bool
  | .single r => r.optional
  | .wildcard _ => true

/- One element of a rule program: a rule at a fixed position or an
   unordered (flexible) array of rules. -/
inductive RuleUnit where
  | one (r : MatchRule)
  | flex (grp : List MatchRule)
deriving Repr

/- JsonFile from src/core/types.ts. -/
structure JsonFile where
  fileName : String
  data : Json
  metadata : Option Json := none
deriving Repr

/- MatchResult from src/core/types.ts. -/
structure MatchResult where
  matched : Bool
  checks : List FilterCheckResult
  rule : MatchRule
deriving Repr

/- MappedFile from src/core/types.ts. -/
structure MappedFile where
  expected : String
  file : JsonFile
  matchResult : MatchResult
  optional : Bool
  info : Option Json
deriving Repr

/- WildcardMappedFile from src/core/types.ts. -/
structure WildcardMappedFile where
  file : JsonFile
  matchResult : MatchResult
  info : Option Json
deriving Repr

/- UnmappedFile from src/core/types.ts. -/
structure UnmappedFile where
  file : JsonFile
  attemptedRules : List MatchResult
deriving Repr

/- PreFilteredFile from src/core/types.ts. -/
structure PreFilteredFile where
  file : JsonFile
  failedChecks : List FilterCheckResult
deriving Repr

/- The `between` context of an optional file. -/
structure BetweenRules where
  afterRule : String
  beforeRule : String
deriving Repr

/- OptionalFile from src/core/types.ts.  The type documents
   `failedMatches` as "all rules that were attempted and failed". -/
structure OptionalFile where
  fileName : String
  position : Nat
  between : Option BetweenRules
  failedMatches : List MatchResult
deriving Repr

/- The stats block of FilterResult. -/
structure FilterStats where
  totalFiles : Nat
  mappedFiles : Nat
  wildcardMatchedFiles : Nat
  unmappedFiles : Nat
  optionalFiles : Nat
  preFilteredFiles : Nat
  totalRules : Nat
  mandatoryRules : Nat
  optionalRules : Nat
deriving Repr

/- FilterResult from src/core/types.ts. -/
structure FilterResult where
  mapped : List MappedFile
  wildcardMatched : List WildcardMappedFile
  optionalFiles : List OptionalFile
  unmapped : List UnmappedFile
  preFiltered : List PreFilteredFile
  stats : FilterStats
deriving Repr

/- The three matching modes. -/
inductive Mode where
  | strict | strictOptional | optional
deriving Repr, DecidableEq

namespace Matcher

/- Matcher.matchFile: evaluate every criterion of the rule (matchAny for a
   wildcard, match for a single rule); matched is the conjunction of all
   check statuses. -/
def matchFile (fromISO : String → Option Int) (file : JsonFile)
    (rule : MatchRule) : MatchResult :=
  let criteria := match rule with
                  | .wildcard w => w.matchAny
                  | .single r => r.match_
  let checks := criteria.map (fun c => FilterEngine.evaluateCriterion fromISO file.data c)
  { matched := checks.all (fun c => c.status), checks := checks, rule := rule }

/- Matcher.applyPreFilter: split the files into those passing every
   pre-filter criterion and those excluded (with their failed checks). -/
def applyPreFilter (fromISO : String → Option Int) (files : List JsonFile)
    (preFilter : List FilterCriterion) : List JsonFile × List PreFilteredFile :=
  match files with
  | [] => ([], [])
  | file :: rest =>
      let checks := preFilter.map (fun c => FilterEngine.evaluateCriterion fromISO file.data c)
      let (m, e) := applyPreFilter fromISO rest preFilter
      if checks.all (fun c => c.status) then (file :: m, e)
      else (m, ⟨file, checks.filter (fun c => !c.status)⟩ :: e)

/- Lookup in the `usedFlexibleRules` map (rule index → set of used member
   indices). -/
def flexGet (m : List (Nat × List Nat)) (i : Nat) : Option (List Nat) :=
  (m.find? (fun p => p.1 = i)).map Prod.snd

/- `usedFlexibleRules.get(i).add(j)`, creating the entry when absent. -/
def flexAdd (m : List (Nat × List Nat)) (i j : Nat) : List (Nat × List Nat) :=
  match m with
  | [] => [(i, [j])]
  | p :: rest =>
      if p.1 = i then (p.1, if j ∈ p.2 then p.2 else p.2 ++ [j]) :: rest
      else p :: flexAdd rest i j

/- `usedFlexibleRules.get(ruleIndex)?.size === groupLength` (undefined
   compares unequal to any length, including 0). -/
def flexAllUsed (m : List (Nat × List Nat)) (i : Nat) (groupLength : Nat) : Bool :=
  match flexGet m i with
  | some used => used.length = groupLength
  | none => false

/- A flexible-group member that forces non-matching files into `unmapped`:
   a non-optional single rule. -/
def isMandatorySingle : MatchRule → Bool
  | .single r => !r.optional
  | .wildcard _ => false

/- The inner loop of the strict walk over a flexible group: try each
   not-yet-used member in order against the file, collecting every
   attempted MatchResult; stop at the first member that matches and is a
   single rule (a matching wildcard member does not stop the scan). -/
def flexScan (fromISO : String → Option Int) (file : JsonFile) :
    List MatchRule → Nat → List Nat → List MatchResult →
    List MatchResult × Option (Nat × SingleMatchRule × MatchResult)
  | [], _, _, acc => (acc, none)
  | r :: rest, subIdx, used, acc =>
      if used.contains subIdx then flexScan fromISO file rest (subIdx + 1) used acc
      else
        let mr := matchFile fromISO file r
        match r with
        | .single sr =>
            if mr.matched then (acc ++ [mr], some (subIdx, sr, mr))
            else flexScan fromISO file rest (subIdx + 1) used (acc ++ [mr])
        | .wildcard _ => flexScan fromISO file rest (subIdx + 1) used (acc ++ [mr])

/- The mutable state of the strict consumption walk of
   Matcher.filterFiles. -/
structure StrictState where
  fileIdx : Nat
  ruleIdx : Nat
  usedFlex : List (Nat × List Nat)
  usedStandalone : List Nat
  matchedFileIndices : List Nat
  mapped : List MappedFile
  wildcardMatched : List WildcardMappedFile
  unmapped : List UnmappedFile
deriving Repr

/- One-to-one transcription of the strict `while (fileIndex <
   sortedFiles.length)` loop of Matcher.filterFiles.  Every iteration of
   the source loop advances `fileIndex` or advances `ruleIndex` while
   `ruleIndex < rules.length`, so the loop runs at most
   `files.length + rules.length` times; the wrapper supplies that much
   fuel plus one. -/
def strictWalk (fromISO : String → Option Int) (files : List JsonFile)
    (rules : List RuleUnit) : Nat → StrictState → StrictState
  | 0, s => s
  | fuel + 1, s =>
    if hf : s.fileIdx < files.length then
      let file := files.get ⟨s.fileIdx, hf⟩
      if hr : s.ruleIdx < rules.length then
        match rules.get ⟨s.ruleIdx, hr⟩ with
        | .flex grp =>
            let (attempted, res) := flexScan fromISO file grp 0
                                      ((flexGet s.usedFlex s.ruleIdx).getD []) []
            match res with
            | some (subIdx, sr, mr) =>
                let usedFlex' := flexAdd s.usedFlex s.ruleIdx subIdx
                let ruleIdx' := if flexAllUsed usedFlex' s.ruleIdx grp.length
                                then s.ruleIdx + 1 else s.ruleIdx
                strictWalk fromISO files rules fuel
                  { s with
                    fileIdx := s.fileIdx + 1,
                    ruleIdx := ruleIdx',
                    usedFlex := usedFlex',
                    matchedFileIndices := s.matchedFileIndices ++ [s.fileIdx],
                    mapped := s.mapped ++
                      [⟨sr.expected, file, mr, sr.optional, sr.info⟩] }
            | none =>
                let ruleIdx' := if flexAllUsed s.usedFlex s.ruleIdx grp.length
                                then s.ruleIdx + 1 else s.ruleIdx
                let unmapped' := if grp.any isMandatorySingle
                                 then s.unmapped ++ [⟨file, attempted⟩]
                                 else s.unmapped
                strictWalk fromISO files rules fuel
                  { s with
                    fileIdx := s.fileIdx + 1,
                    ruleIdx := ruleIdx',
                    unmapped := unmapped' }
        | .one rule =>
            if isSingleMatchRule rule && s.usedStandalone.contains s.ruleIdx then
              strictWalk fromISO files rules fuel { s with ruleIdx := s.ruleIdx + 1 }
            else
              let mr := matchFile fromISO file rule
              if hm : mr.matched then
                match rule with
                | .single sr =>
                    strictWalk fromISO files rules fuel
                      { s with
                        fileIdx := s.fileIdx + 1,
                        ruleIdx := s.ruleIdx + 1,
                        usedStandalone := s.usedStandalone ++ [s.ruleIdx],
                        matchedFileIndices := s.matchedFileIndices ++ [s.fileIdx],
                        mapped := s.mapped ++
                          [⟨sr.expected, file, mr, sr.optional, sr.info⟩] }
                | .wildcard w =>
                    strictWalk fromISO files rules fuel
                      { s with
                        fileIdx := s.fileIdx + 1,
                        ruleIdx := if w.greedy then s.ruleIdx else s.ruleIdx + 1,
                        matchedFileIndices := s.matchedFileIndices ++ [s.fileIdx],
                        wildcardMatched := s.wildcardMatched ++ [⟨file, mr, w.info⟩] }
              else
                if ruleOptional rule then
                  strictWalk fromISO files rules fuel { s with ruleIdx := s.ruleIdx + 1 }
                else
                  strictWalk fromISO files rules fuel
                    { s with
                      fileIdx := s.fileIdx + 1,
                      unmapped := s.unmapped ++ [⟨file, [mr]⟩] }
      else
        -- ruleIndex has run past the program: the file is unmapped unless
        -- it was already matched (matched indices are always behind the
        -- file cursor, so the guard never fires in reachable states).
        let s' := if s.matchedFileIndices.contains s.fileIdx then s
                  else { s with unmapped := s.unmapped ++ [⟨file, ([] : List MatchResult)⟩] }
        strictWalk fromISO files rules fuel { s' with fileIdx := s.fileIdx + 1 }
    else s

/- Matcher.countRules. -/
def countRules (rules : List RuleUnit) : Nat :=
  rules.foldl (fun count u =>
    match u with
    | .flex grp => count + grp.length
    | .one _ => count + 1) 0

/- Matcher.countMandatoryRules ("mandatory" = non-optional non-wildcard). -/
def countMandatoryRules (rules : List RuleUnit) : Nat :=
  rules.foldl (fun count u =>
    match u with
    | .flex grp => count + (grp.filter (fun r => !ruleOptional r && !isWildcardRule r)).length
    | .one r => count + (if ruleOptional r || isWildcardRule r then 0 else 1)) 0

/- Matcher.countOptionalRules. -/
def countOptionalRules (rules : List RuleUnit) : Nat :=
  rules.foldl (fun count u =>
    match u with
    | .flex grp => count + (grp.filter (fun r => ruleOptional r || isWildcardRule r)).length
    | .one r => count + (if ruleOptional r || isWildcardRule r then 1 else 0)) 0

end Matcher

/- FilterGroup from src/core/types.ts: common filter criteria plus the
   group's rule program (the source converts each element of
   `group.rules` to the `MatchRule | MatchRule[]` shape with an identity
   map before matching). -/
structure FilterGroup where
  groupFilter : List FilterCriterion
  rules : List RuleUnit
  info : Option Json := none
deriving Repr

namespace Matcher

/- The walk state of Matcher.filterFilesOptionalMode (scan-forward
   algorithm).  `lastMatchedIndex` starts at -1 as in the source. -/
structure OptState where
  currentFileIndex : Nat
  lastMatchedIndex : Int
  lastMatchedRule : Option String
  usedFlex : List (Nat × List Nat)
  mapped : List MappedFile
  wildcardMatched : List WildcardMappedFile
  optionalFiles : List OptionalFile
deriving Repr

/- The label recorded for a matched rule in the optional-mode gap
   context: the expected identifier of a single rule, "(wildcard)" for a
   wildcard rule. -/
def ruleLabel : MatchRule → String
  | .single sr => sr.expected
  | .wildcard _ => "(wildcard)"

/- The flexible-array loop of the optional-mode scan: skip already-used
   single members, return the first matching member together with the
   member index to mark used (single rules only). -/
def optTryFlex (fromISO : String → Option Int) (file : JsonFile) :
    List MatchRule → Nat → List Nat → Option (MatchResult × MatchRule × Option Nat)
  | [], _, _ => none
  | r :: rest, subIdx, used =>
      if isSingleMatchRule r && used.contains subIdx then
        optTryFlex fromISO file rest (subIdx + 1) used
      else
        let result := matchFile fromISO file r
        if result.matched then
          some (result, r, if isSingleMatchRule r then some subIdx else none)
        else optTryFlex fromISO file rest (subIdx + 1) used

/- Try one rule unit against one file in the optional-mode scan. -/
def optTryUnit (fromISO : String → Option Int) (file : JsonFile)
    (unit : RuleUnit) (usedSub : List Nat) :
    Option (MatchResult × MatchRule × Option Nat) :=
  match unit with
  | .flex grp => optTryFlex fromISO file grp 0 usedSub
  | .one r =>
      let m := matchFile fromISO file r
      if m.matched then some (m, r, none) else none

/- The gap entries pushed for the skipped positions `start ≤ i <
   start + cnt`: file name, original position, the bounding rule labels,
   and an empty `failedMatches` list (the source pushes a literal `[]`
   with a TODO comment about collecting the failed matches). -/
def gapEntries (files : List JsonFile) (start cnt : Nat)
    (afterR beforeR : String) : List OptionalFile :=
  (List.range' start cnt).filterMap (fun i =>
    (files.get? i).map (fun f => ⟨f.fileName, i, some ⟨afterR, beforeR⟩, []⟩))

/- The scan-forward inner loop: walk the remaining file positions in
   order; at the first position whose file matches the unit, mark the used
   member, record every skipped position since the last match as an
   optional file, record the match, and advance the cursor past it. -/
def optScan (fromISO : String → Option Int) (files : List JsonFile)
    (unit : RuleUnit) (ruleIndex : Nat) (s : OptState) :
    List Nat → Option OptState
  | [] => none
  | fileIndex :: rest =>
      match files.get? fileIndex with
      | none => none
      | some file =>
          match optTryUnit fromISO file unit ((flexGet s.usedFlex ruleIndex).getD []) with
          | some (mr, rule, subIdx?) =>
              let usedFlex' := match subIdx? with
                               | some j => flexAdd s.usedFlex ruleIndex j
                               | none => s.usedFlex
              let gapStart := (s.lastMatchedIndex + 1).toNat
              let gaps := gapEntries files gapStart (fileIndex - gapStart)
                            (s.lastMatchedRule.getD "(start)") (ruleLabel rule)
              let s' := { s with
                          usedFlex := usedFlex',
                          optionalFiles := s.optionalFiles ++ gaps }
              let s'' : OptState :=
                match rule with
                | .single sr =>
                    { s' with
                      mapped := s'.mapped ++ [⟨sr.expected, file, mr, sr.optional, sr.info⟩],
                      lastMatchedRule := some sr.expected }
                | .wildcard w =>
                    { s' with
                      wildcardMatched := s'.wildcardMatched ++ [⟨file, mr, w.info⟩],
                      lastMatchedRule := some "(wildcard)" }
              some { s'' with
                     lastMatchedIndex := (fileIndex : Int),
                     currentFileIndex := fileIndex + 1 }
          | none => optScan fromISO files unit ruleIndex s rest

/- The outer rule loop of Matcher.filterFilesOptionalMode: for each rule
   unit scan forward from the cursor; when no match is found and the unit
   is mandatory, strict-optional mode stops processing further rules
   (pure optional mode just continues). -/
def optRuleLoop (fromISO : String → Option Int) (files : List JsonFile)
    (mode : Mode) : List RuleUnit → Nat → OptState → OptState
  | [], _, s => s
  | unit :: rest, ruleIndex, s =>
      match optScan fromISO files unit ruleIndex s
              (List.range' s.currentFileIndex (files.length - s.currentFileIndex)) with
      | some s' => optRuleLoop fromISO files mode rest (ruleIndex + 1) s'
      | none =>
          let isMandatory :=
            match unit with
            | .flex grp => grp.any (fun r => !ruleOptional r && !isWildcardRule r)
            | .one r => !ruleOptional r && !isWildcardRule r
          if isMandatory = true ∧ mode = .strictOptional then s
          else optRuleLoop fromISO files mode rest (ruleIndex + 1) s

/- Matcher.filterFilesOptionalMode: run the scan-forward walk, then mark
   every remaining file after the last match as optional. -/
def filterFilesOptionalMode (fromISO : String → Option Int)
    (sortedFiles : List JsonFile) (rules : List RuleUnit)
    (preFiltered : List PreFilteredFile) (totalFiles : Nat) (mode : Mode) :
    FilterResult :=
  let s := optRuleLoop fromISO sortedFiles mode rules 0 ⟨0, -1, none, [], [], [], []⟩
  let trailStart := (s.lastMatchedIndex + 1).toNat
  let optionalFiles := s.optionalFiles ++
    gapEntries sortedFiles trailStart (sortedFiles.length - trailStart)
      (s.lastMatchedRule.getD "(start)") "(end)"
  { mapped := s.mapped,
    wildcardMatched := s.wildcardMatched,
    optionalFiles := optionalFiles,
    unmapped := [],
    preFiltered := preFiltered,
    stats := { totalFiles := totalFiles,
               mappedFiles := s.mapped.length,
               wildcardMatchedFiles := s.wildcardMatched.length,
               unmappedFiles := 0,
               optionalFiles := optionalFiles.length,
               preFilteredFiles := preFiltered.length,
               totalRules := countRules rules,
               mandatoryRules := countMandatoryRules rules,
               optionalRules := countOptionalRules rules } }

/- Matcher.filterFiles: apply the pre-filter, sort (a stable sort with the
   caller's comparator, as JavaScript Array.prototype.sort), then run the
   scan-forward walk in the optional modes or the strict consumption walk
   otherwise. -/
def filterFiles (fromISO : String → Option Int) (files : List JsonFile)
    (rules : List RuleUnit) (sortFn : Option (JsonFile → JsonFile → Int))
    (preFilter : Option (List FilterCriterion)) (mode : Mode) : FilterResult :=
  let fp := match preFilter with
            | some pf => applyPreFilter fromISO files pf
            | none => (files, [])
  let preFiltered := fp.2
  let sortedFiles := match sortFn with
                     | some f => fp.1.mergeSort (fun a b => decide (f a b ≤ 0))
                     | none => fp.1
  if mode = .optional ∨ mode = .strictOptional then
    filterFilesOptionalMode fromISO sortedFiles rules preFiltered files.length mode
  else
    let s := strictWalk fromISO sortedFiles rules
               (sortedFiles.length + rules.length + 1) ⟨0, 0, [], [], [], [], [], []⟩
    { mapped := s.mapped,
      wildcardMatched := s.wildcardMatched,
      optionalFiles := [],
      unmapped := s.unmapped,
      preFiltered := preFiltered,
      stats := { totalFiles := files.length,
                 mappedFiles := s.mapped.length,
                 wildcardMatchedFiles := s.wildcardMatched.length,
                 unmappedFiles := s.unmapped.length,
                 optionalFiles := 0,
                 preFilteredFiles := preFiltered.length,
                 totalRules := countRules rules,
                 mandatoryRules := countMandatoryRules rules,
                 optionalRules := countOptionalRules rules } }

/- Matcher.filterFilesWithGroups: pre-filter and sort once, then run
   filterFiles per group on the files passing that group's filter (groups
   matching no file are skipped), merging the bucket lists in group
   order. -/
def filterFilesWithGroups (fromISO : String → Option Int)
    (files : List JsonFile) (groups : List FilterGroup)
    (sortFn : Option (JsonFile → JsonFile → Int))
    (preFilter : Option (List FilterCriterion)) (mode : Mode) : FilterResult :=
  let fp := match preFilter with
            | some pf => applyPreFilter fromISO files pf
            | none => (files, [])
  let preFiltered := fp.2
  let sortedFiles := match sortFn with
                     | some f => fp.1.mergeSort (fun a b => decide (f a b ≤ 0))
                     | none => fp.1
  let step := fun (acc : List MappedFile × List WildcardMappedFile ×
                         List UnmappedFile × List OptionalFile)
                  (group : FilterGroup) =>
    let groupFiles := sortedFiles.filter (fun file =>
      (group.groupFilter.map (fun c =>
        FilterEngine.evaluateCriterion fromISO file.data c)).all (fun c => c.status))
    if groupFiles.isEmpty then acc
    else
      let groupResult := filterFiles fromISO groupFiles group.rules none none mode
      (acc.1 ++ groupResult.mapped, acc.2.1 ++ groupResult.wildcardMatched,
       acc.2.2.1 ++ groupResult.unmapped, acc.2.2.2 ++ groupResult.optionalFiles)
  let merged := groups.foldl step ([], [], [], [])
  let allRules := groups.flatMap (fun g => g.rules)
  { mapped := merged.1,
    wildcardMatched := merged.2.1,
    optionalFiles := merged.2.2.2,
    unmapped := merged.2.2.1,
    preFiltered := preFiltered,
    stats := { totalFiles := files.length,
               mappedFiles := merged.1.length,
               wildcardMatchedFiles := merged.2.1.length,
               unmappedFiles := merged.2.2.1.length,
               optionalFiles := merged.2.2.2.length,
               preFilteredFiles := preFiltered.length,
               totalRules := countRules allRules,
               mandatoryRules := countMandatoryRules allRules,
               optionalRules := countOptionalRules allRules } }

end Matcher

/- FilterRequest from src/core/types.ts (the unused time context is not
   modelled beyond the `fromISO` parser parameter). -/
structure FilterRequest where
  files : List JsonFile
  rules : Option (List RuleUnit) := none
  groups : Option (List FilterGroup) := none
  sortFn : Option (JsonFile → JsonFile → Int) := none
  preFilter : Option (List FilterCriterion) := none
  mode : Option Mode := none

/- The top-level filterFiles entry point from src/index.ts: reject a
   request supplying both or neither of rules/groups, otherwise delegate
   to the groups-based or flat-rules matcher (mode defaults to strict). -/
def filterFiles (fromISO : String → Option Int) (request : FilterRequest) :
    Except String FilterResult :=
  if request.rules.isSome ∧ request.groups.isSome then
    .error "FilterRequest: Provide either rules or groups, not both"
  else if request.rules.isNone ∧ request.groups.isNone then
    .error "FilterRequest: Must provide either rules or groups"
  else
    match request.groups with
    | some groups =>
        .ok (Matcher.filterFilesWithGroups fromISO request.files groups
              request.sortFn request.preFilter (request.mode.getD .strict))
    | none =>
        match request.rules with
        | some rules =>
            .ok (Matcher.filterFiles fromISO request.files rules
                  request.sortFn request.preFilter (request.mode.getD .strict))
        | none => .error "FilterRequest: Rules are required"

/- The value of a (most-significant-first) digit list. -/
def digitsVal (ds : List Nat) : Nat := ds.foldl (fun a d => a * 10 + d) 0

/- The object-like comparison used by deepEqual for every pair of
   `typeof === 'object'` values that is not two arrays: equal key counts
   and, for every key of the left value, property-wise deep equality. -/
def objLikeEq (a b : Json) : Bool :=
  (jsKeys a).length = (jsKeys b).length &&
  (jsKeys a).all (fun k => deepEqualProp a b k)

/- One traversal step of getValueFromPath: the recorded (coerced) path
   element and the child node, or none when the step fails.  Mirrors the
   loop body: a null node fails; an array node coerces the segment with
   `parseInt` and bounds-checks it, recording the numeric index; an object
   node looks up `String(segment)`, recording the string key; a scalar
   node fails. -/
def stepResolve : Json → PathElement → Option (PathElement × Json)
  | .null, _ => none
  | .arr xs, seg =>
      match (match seg with
             | .num n => some n
             | .str s => parseIntJS s : Option Int) with
      | none => none
      | some index =>
          if index < 0 ∨ (xs.length : Int) ≤ index then none
          else (xs.get? index.toNat).map (fun v => (PathElement.num index, v))
  | .obj kvs, seg =>
      (kvs.find? (fun p => p.1 = pathElementToString seg)).map
        (fun p => (PathElement.str (pathElementToString seg), p.2))
  | _, _ => none

/- The specification's enumeration of per-step failure conditions, stated
   against a node and the next path segment: a null node with steps
   remaining; an array node whose segment does not coerce (via `parseInt`)
   to an in-bounds index; an object node lacking the (stringified) key; a
   scalar node with steps remaining. -/
def stepFails (n : Json) (seg : PathElement) : Bool :=
  match n with
  | .null => true
  | .arr xs =>
      match (match seg with
             | .num i => some i
             | .str s => parseIntJS s : Option Int) with
      | none => true
      | some i => decide (i < 0 ∨ (xs.length : Int) ≤ i)
  | .obj kvs => !((kvs.map Prod.fst).contains (pathElementToString seg))
  | _ => true

namespace FilterEngine

/- The check kinds whose evaluation begins by resolving the criterion's
   path and fails on an unresolved path (every kind except Exists, which
   turns resolution failure into a plain boolean, and OneOf, which the
   dispatch never reaches). -/
def requiresResolution : Check → Bool
  | .value _ => true
  | .arrayElement _ _ => true
  | .arraySize _ _ => true
  | .timeRange _ _ => true
  | .numericRange _ _ => true
  | .existsC _ => false
  | .oneOf _ => false

/- The checkType tag produced for each check shape. -/
def checkTypeName : Check → String
  | .value _ => "checkValue"
  | .existsC _ => "checkExists"
  | .arrayElement _ _ => "checkArrayElement"
  | .arraySize _ _ => "checkArraySize"
  | .timeRange _ _ => "checkTimeRange"
  | .numericRange _ _ => "checkNumericRange"
  | .oneOf _ => "unknown"

end FilterEngine

namespace Matcher

/- The state reached after a greedy wildcard at the current rule cursor
   absorbs the next k files: the file cursor advances by k, each absorbed
   file is emitted to wildcardMatched with its match evidence, and their
   indices are recorded as matched; the rule cursor stays on the
   wildcard. -/
def wildAbsorb (fromISO : String → Option Int) (files : List JsonFile)
    (w : WildcardMatchRule) (s : StrictState) (k : Nat) : StrictState :=
  { s with
    fileIdx := s.fileIdx + k,
    wildcardMatched := s.wildcardMatched ++
      (List.range' s.fileIdx k).filterMap (fun i =>
        (files.get? i).map (fun f => ⟨f, matchFile fromISO f (.wildcard w), w.info⟩)),
    matchedFileIndices := s.matchedFileIndices ++ List.range' s.fileIdx k }

end Matcher

namespace Matcher

/- The number of classified records in an optional-mode walk state. -/
def optCount (s : OptState) : Nat :=
  s.mapped.length + s.wildcardMatched.length + s.optionalFiles.length

/- The running invariant of the scan-forward walk: the cursor sits one
   past the last matched index, every file before the cursor has been
   classified exactly once, and the cursor never passes the end. -/
def OptInv (files : List JsonFile) (s : OptState) : Prop :=
  s.lastMatchedIndex + 1 = (s.currentFileIndex : Int) ∧
  optCount s = s.currentFileIndex ∧
  s.currentFileIndex ≤ files.length

/- The number of classified records in a strict walk state. -/
def strictCount (s : StrictState) : Nat :=
  s.mapped.length + s.wildcardMatched.length + s.unmapped.length

end Matcher

/-
  ===================  Theorems  ===================
-/

/-- C3: the specification states that evaluating a OneOf(allowed)
criterion yields status=true exactly when the resolved value deep-equals a
member of `allowed`, with a checkType identifying the OneOf check.  The
engine's dispatch has no branch for the `oneOf` field, so the criterion
falls through to the unknown-shape fallback: on the repository's own test
input (data `{status: "PLAN"}`, check `oneOf: ["PLAN", "PROGNOSE"]`, whose
test expects status=true and checkType="checkOneOf") the engine returns
status=false and checkType="unknown".  This contradicts the tests and the
claim; the code, not the claim, is at fault. -/
theorem oneOf_unknown_fallback :
    FilterEngine.evaluateCriterion (fun _ => none)
      (.obj [("status", .str "PLAN")])
      ⟨[.str "status"], .oneOf [.str "PLAN", .str "PROGNOSE"]⟩ =
    ⟨false, "unknown", some ⟨"Unknown check type", none⟩⟩ := rfl

/-- C6: the top-level invocation fails synchronously exactly when both of
rules and groups are supplied or neither is supplied; every other request
produces a FilterResult without raising. -/
theorem filterFiles_usage_error_characterization :
    ∀ (fromISO : String → Option Int) (request : FilterRequest),
      ((∃ msg, filterFiles fromISO request = Except.error msg) ↔
         request.rules.isSome = request.groups.isSome) ∧
      ((∃ result, filterFiles fromISO request = Except.ok result) ↔
         request.rules.isSome ≠ request.groups.isSome) := by
  intro fromISO request
  obtain ⟨files, rules, groups, sortFn, preFilter, mode⟩ := request
  cases rules <;> cases groups <;> simp [filterFiles]

/-- C5 counterexample: the claim asserts that for *every* check kind an
unresolved path yields status=false.  For an Exists check with
expected=false the engine returns status=true on an unresolved path: with
data `{a: 1}` the path `["missing"]` does not resolve, yet the criterion
`exists: false` evaluates to status=true. -/
theorem path_failure_uniform_counterexample :
    (getValueFromPath (.obj [("a", .num 1)]) [.str "missing"]).found = false ∧
    (FilterEngine.evaluateCriterion (fun _ => none) (.obj [("a", .num 1)])
       ⟨[.str "missing"], .existsC false⟩).status = true := ⟨rfl, rfl⟩

/-- C5 (amended): for the check kinds that require path resolution
(Value, ArrayMembership, ArraySize, TimeRange, NumericRange — every kind
except Exists, which compares resolvability against its expected flag, and
OneOf, which falls through to the unknown-shape fallback), an unresolved
path uniformly yields status=false, the kind's own checkType, and a reason
carrying the path and the underlying resolution error. -/
theorem path_failure_uniform_amended
    (fromISO : String → Option Int) (data : Json) (c : FilterCriterion)
    (hk : FilterEngine.requiresResolution c.check = true)
    (hnf : (getValueFromPath data c.path).found = false) :
    (FilterEngine.evaluateCriterion fromISO data c).status = false ∧
    (FilterEngine.evaluateCriterion fromISO data c).checkType =
      FilterEngine.checkTypeName c.check ∧
    (FilterEngine.evaluateCriterion fromISO data c).reason =
      some ⟨(getValueFromPath data c.path).error.getD "Path not found",
            some c.path⟩ := by
  obtain ⟨p, ch⟩ := c
  cases ch <;> simp [FilterEngine.requiresResolution] at hk <;>
    simp [FilterEngine.evaluateCriterion, FilterEngine.checkValue,
          FilterEngine.checkArrayElement, FilterEngine.checkArraySize,
          FilterEngine.checkTimeRange, FilterEngine.checkNumericRange,
          FilterEngine.checkTypeName, hnf]

/-- C5 witness: the amended theorem applied to a Value check on an
unresolvable path of the concrete data `{a: 1}`. -/
theorem path_failure_uniform_amended_witness :
    (FilterEngine.evaluateCriterion (fun _ => none) (.obj [("a", .num 1)])
       ⟨[.str "b"], .value (.num 2)⟩).status = false ∧
    (FilterEngine.evaluateCriterion (fun _ => none) (.obj [("a", .num 1)])
       ⟨[.str "b"], .value (.num 2)⟩).checkType =
      FilterEngine.checkTypeName (.value (.num 2)) ∧
    (FilterEngine.evaluateCriterion (fun _ => none) (.obj [("a", .num 1)])
       ⟨[.str "b"], .value (.num 2)⟩).reason =
      some ⟨(getValueFromPath (.obj [("a", .num 1)]) [.str "b"]).error.getD
              "Path not found", some [.str "b"]⟩ :=
  path_failure_uniform_amended (fun _ => none) (.obj [("a", .num 1)])
    ⟨[.str "b"], .value (.num 2)⟩ rfl rfl

/-- C9: for a TimeRange criterion the evaluation branch is chosen strictly
by the runtime type of the resolved value.  A numeric resolved value is
compared inclusively against `parseInt` of both bounds, failing with a
reason when either bound does not parse; a string resolved value goes
through the ISO parser together with both bounds (unparsable value or
bound fails); any other runtime type fails.  The statement holds for every
parser `fromISO`, and the numeric branch never consults `fromISO` while
the string branch never consults `parseIntJS` — there is no unit
conversion between the representations. -/
theorem checkTimeRange_branch_selection
    (fromISO : String → Option Int) (data : Json) (p : List PathElement)
    (mn mx : String)
    (hf : (getValueFromPath data p).found = true) :
    (∀ n : Int, (getValueFromPath data p).value = some (.num n) →
       (FilterEngine.evaluateCriterion fromISO data ⟨p, .timeRange mn mx⟩).status =
         (match parseIntJS mn, parseIntJS mx with
          | some a, some b => decide (a ≤ n ∧ n ≤ b)
          | _, _ => false) ∧
       ((parseIntJS mn = none ∨ parseIntJS mx = none) →
          (FilterEngine.evaluateCriterion fromISO data ⟨p, .timeRange mn mx⟩).reason =
            some ⟨"Min or max is not a valid number", none⟩)) ∧
    (∀ s : String, (getValueFromPath data p).value = some (.str s) →
       (FilterEngine.evaluateCriterion fromISO data ⟨p, .timeRange mn mx⟩).status =
         (match fromISO s, fromISO mn, fromISO mx with
          | some ts, some a, some b => decide (a ≤ ts ∧ ts ≤ b)
          | _, _, _ => false) ∧
       (fromISO s = none →
          (FilterEngine.evaluateCriterion fromISO data ⟨p, .timeRange mn mx⟩).reason =
            some ⟨"Invalid timestamp: " ++ s, some p⟩) ∧
       (∀ ts, fromISO s = some ts → (fromISO mn = none ∨ fromISO mx = none) →
          (FilterEngine.evaluateCriterion fromISO data ⟨p, .timeRange mn mx⟩).reason =
            some ⟨"Invalid min or max time", none⟩)) ∧
    (∀ v : Json, (getValueFromPath data p).value = some v →
       (∀ n, v ≠ .num n) → (∀ s, v ≠ .str s) →
       FilterEngine.evaluateCriterion fromISO data ⟨p, .timeRange mn mx⟩ =
         ⟨false, "checkTimeRange",
          some ⟨"Timestamp must be a string or number, got " ++ typeOf v,
                some p⟩⟩) := by
  refine ⟨?_, ?_, ?_⟩
  · intro n hv
    constructor
    · cases hmn : parseIntJS mn <;> cases hmx : parseIntJS mx <;>
        simp [FilterEngine.evaluateCriterion, FilterEngine.checkTimeRange,
              hf, hv, hmn, hmx] <;> split <;> simp_all
    · intro hbad
      cases hmn : parseIntJS mn <;> cases hmx : parseIntJS mx <;>
        simp [FilterEngine.evaluateCriterion, FilterEngine.checkTimeRange,
              hf, hv, hmn, hmx] <;> simp [hmn, hmx] at hbad
  · intro s hv
    refine ⟨?_, ?_, ?_⟩
    · cases hts : fromISO s <;> cases hmn : fromISO mn <;> cases hmx : fromISO mx <;>
        simp [FilterEngine.evaluateCriterion, FilterEngine.checkTimeRange,
              hf, hv, hts, hmn, hmx] <;> split <;> simp_all
    · intro hts
      simp [FilterEngine.evaluateCriterion, FilterEngine.checkTimeRange,
            hf, hv, hts]
    · intro ts hts hbad
      cases hmn : fromISO mn <;> cases hmx : fromISO mx <;>
        simp [FilterEngine.evaluateCriterion, FilterEngine.checkTimeRange,
              hf, hv, hts, hmn, hmx] <;> simp [hmn, hmx] at hbad
  · intro v hv hnotnum hnotstr
    cases v with
    | num k => exact absurd rfl (hnotnum k)
    | str s => exact absurd rfl (hnotstr s)
    | null =>
        simp [FilterEngine.evaluateCriterion, FilterEngine.checkTimeRange,
              hf, hv, typeOf]
    | bool b =>
        simp [FilterEngine.evaluateCriterion, FilterEngine.checkTimeRange,
              hf, hv, typeOf]
    | arr xs =>
        simp [FilterEngine.evaluateCriterion, FilterEngine.checkTimeRange,
              hf, hv, typeOf]
    | obj kvs =>
        simp [FilterEngine.evaluateCriterion, FilterEngine.checkTimeRange,
              hf, hv, typeOf]

/-- C9 witness: the theorem applied to the concrete data `{t: 5}` with
bounds "1" and "9" and the empty ISO parser; the numeric branch compares
5 against the parsed bounds. -/
theorem checkTimeRange_branch_selection_witness :
    (FilterEngine.evaluateCriterion (fun _ => none) (.obj [("t", .num 5)])
       ⟨[.str "t"], .timeRange "1" "9"⟩).status =
      (match parseIntJS "1", parseIntJS "9" with
       | some a, some b => decide (a ≤ (5 : Int) ∧ (5 : Int) ≤ b)
       | _, _ => false) :=
  ((checkTimeRange_branch_selection (fun _ => none) (.obj [("t", .num 5)])
      [.str "t"] "1" "9" rfl).1 5 rfl).1

theorem gapEntries_failedMatches (files : List JsonFile) (start cnt : Nat)
    (a b : String) :
    ∀ e ∈ Matcher.gapEntries files start cnt a b, e.failedMatches = [] := by
  intro e he
  simp only [Matcher.gapEntries, List.mem_filterMap] at he
  obtain ⟨i, _, hi⟩ := he
  cases hg : files.get? i with
  | none => rw [hg] at hi; simp at hi
  | some f =>
      rw [hg] at hi
      simp only [Option.map_some'] at hi
      rw [← Option.some.inj hi]

theorem optScan_failedMatches
    (fromISO : String → Option Int) (files : List JsonFile) (unit : RuleUnit)
    (ruleIndex : Nat) :
    ∀ (idxs : List Nat) (s s' : Matcher.OptState),
      Matcher.optScan fromISO files unit ruleIndex s idxs = some s' →
      (∀ e ∈ s.optionalFiles, e.failedMatches = []) →
      ∀ e ∈ s'.optionalFiles, e.failedMatches = [] := by
  intro idxs
  induction idxs with
  | nil =>
      intro s s' h
      simp [Matcher.optScan] at h
  | cons i rest ih =>
      intro s s' h hs
      simp only [Matcher.optScan] at h
      cases hget : files.get? i with
      | none => rw [hget] at h; simp at h
      | some file =>
          simp only [hget] at h
          cases htry : Matcher.optTryUnit fromISO file unit
              ((Matcher.flexGet s.usedFlex ruleIndex).getD []) with
          | none =>
              simp only [htry] at h
              exact ih s s' h hs
          | some trip =>
              obtain ⟨mr, rule, subIdx?⟩ := trip
              simp only [htry] at h
              have hs' := (Option.some.inj h).symm
              subst hs'
              cases rule <;>
                · intro e he
                  simp only [List.mem_append] at he
                  rcases he with he | he
                  · exact hs e he
                  · exact gapEntries_failedMatches files _ _ _ _ e he

theorem optRuleLoop_failedMatches
    (fromISO : String → Option Int) (files : List JsonFile) (mode : Mode) :
    ∀ (rules : List RuleUnit) (ri : Nat) (s : Matcher.OptState),
      (∀ e ∈ s.optionalFiles, e.failedMatches = []) →
      ∀ e ∈ (Matcher.optRuleLoop fromISO files mode rules ri s).optionalFiles,
        e.failedMatches = [] := by
  intro rules
  induction rules with
  | nil => intro ri s hs; simpa [Matcher.optRuleLoop] using hs
  | cons unit rest ih =>
      intro ri s hs
      simp only [Matcher.optRuleLoop]
      cases hscan : Matcher.optScan fromISO files unit ri s
          (List.range' s.currentFileIndex (files.length - s.currentFileIndex)) with
      | some s' =>
          simp only [hscan]
          exact ih (ri + 1) s'
            (optScan_failedMatches fromISO files unit ri _ s s' hscan hs)
      | none =>
          simp only [hscan]
          split
          · exact hs
          · exact ih (ri + 1) s hs

/-- C10: in Optional and StrictOptional modes, every entry the engine
places into optionalFiles carries an empty failedMatches list — the
scan-forward walk never records which rules were attempted against a
skipped record (the OptionalFile type documents that field as the rules
that were attempted and failed, and the source carries a TODO about
collecting them). -/
theorem optionalFiles_empty_failedMatches
    (fromISO : String → Option Int) (files : List JsonFile)
    (rules : List RuleUnit) (sortFn : Option (JsonFile → JsonFile → Int))
    (preFilter : Option (List FilterCriterion)) (mode : Mode)
    (hmode : mode = Mode.optional ∨ mode = Mode.strictOptional) :
    ∀ e ∈ (Matcher.filterFiles fromISO files rules sortFn preFilter
             mode).optionalFiles, e.failedMatches = [] := by
  simp only [Matcher.filterFiles]
  rw [if_pos hmode]
  simp only [Matcher.filterFilesOptionalMode]
  intro e he
  simp only [List.mem_append] at he
  rcases he with he | he
  · exact optRuleLoop_failedMatches fromISO _ mode rules 0 _ (by simp) e he
  · exact gapEntries_failedMatches _ _ _ _ _ e he

/-- C10 witness: the theorem applied at a concrete optional-mode request,
instantiated at the one trailing record the walk marks optional. -/
theorem optionalFiles_empty_failedMatches_witness :
    (⟨"g", 1, some ⟨"X", "(end)"⟩, ([] : List MatchResult)⟩ :
       OptionalFile).failedMatches = [] :=
  optionalFiles_empty_failedMatches (fun _ => none)
    [⟨"a", .obj [("x", .bool true)], none⟩,
     ⟨"g", .obj [("gap", .bool true)], none⟩]
    [.one (.single { match_ := [⟨[.str "x"], .existsC true⟩],
                     expected := "X" })]
    none none Mode.optional (Or.inl rfl)
    ⟨"g", 1, some ⟨"X", "(end)"⟩, []⟩ (List.Mem.head _)

theorem applyPreFilter_length (fromISO : String → Option Int)
    (preFilter : List FilterCriterion) :
    ∀ files : List JsonFile,
      (Matcher.applyPreFilter fromISO files preFilter).1.length +
      (Matcher.applyPreFilter fromISO files preFilter).2.length = files.length := by
  intro files
  induction files with
  | nil => simp [Matcher.applyPreFilter]
  | cons f rest ih =>
      simp only [Matcher.applyPreFilter]
      split <;> simp <;> omega

theorem gapEntries_length (files : List JsonFile) (a b : String) :
    ∀ (cnt start : Nat), start + cnt ≤ files.length →
      (Matcher.gapEntries files start cnt a b).length = cnt := by
  intro cnt
  induction cnt with
  | zero => intro start _; simp [Matcher.gapEntries]
  | succ n ih =>
      intro start hle
      have hs : start < files.length := by omega
      simp only [Matcher.gapEntries, List.range'_succ, List.filterMap_cons,
                 List.get?_eq_get hs, Option.map_some']
      have := ih (start + 1) (by omega)
      simp only [Matcher.gapEntries] at this
      simp only [List.get?_eq_getElem?] at this
      simp [this]

theorem optScan_inv (fromISO : String → Option Int) (files : List JsonFile)
    (unit : RuleUnit) (ruleIndex : Nat) :
    ∀ (idxs : List Nat) (s s' : Matcher.OptState),
      (∀ i ∈ idxs, s.currentFileIndex ≤ i ∧ i < files.length) →
      Matcher.OptInv files s →
      Matcher.optScan fromISO files unit ruleIndex s idxs = some s' →
      Matcher.OptInv files s' := by
  intro idxs
  induction idxs with
  | nil => intro s s' _ _ h; simp [Matcher.optScan] at h
  | cons i rest ih =>
      intro s s' hidx hinv h
      obtain ⟨hge, hlt⟩ := hidx i (List.mem_cons_self i rest)
      simp only [Matcher.optScan] at h
      rw [List.get?_eq_get hlt] at h
      simp only [] at h
      cases htry : Matcher.optTryUnit fromISO (files.get ⟨i, hlt⟩) unit
          ((Matcher.flexGet s.usedFlex ruleIndex).getD []) with
      | none =>
          simp only [htry] at h
          exact ih s s' (fun j hj => hidx j (List.mem_cons_of_mem i hj)) hinv h
      | some trip =>
          obtain ⟨mr, rule, subIdx?⟩ := trip
          simp only [htry] at h
          have hs' := (Option.some.inj h).symm
          subst hs'
          obtain ⟨hcur, hcount, hle⟩ := hinv
          have hstart : (s.lastMatchedIndex + 1).toNat = s.currentFileIndex := by
            rw [hcur]; exact Int.toNat_natCast s.currentFileIndex
          have hglen : (Matcher.gapEntries files (s.lastMatchedIndex + 1).toNat
              (i - (s.lastMatchedIndex + 1).toNat) (s.lastMatchedRule.getD "(start)")
              (Matcher.ruleLabel rule)).length = i - s.currentFileIndex := by
            rw [hstart]
            exact gapEntries_length files _ _ _ s.currentFileIndex (by omega)
          cases rule with
          | single sr =>
              refine ⟨by simp, ?_, by simpa using hlt⟩
              simp only [Matcher.optCount, List.length_append, hglen]
              simp only [Matcher.optCount] at hcount
              simp only [List.length_append] at *
              simp only [List.length_cons, List.length_nil]
              omega
          | wildcard w =>
              refine ⟨by simp, ?_, by simpa using hlt⟩
              simp only [Matcher.optCount, List.length_append, hglen]
              simp only [Matcher.optCount] at hcount
              simp only [List.length_append] at *
              simp only [List.length_cons, List.length_nil]
              omega

theorem optRuleLoop_inv (fromISO : String → Option Int) (files : List JsonFile)
    (mode : Mode) :
    ∀ (rules : List RuleUnit) (ri : Nat) (s : Matcher.OptState),
      Matcher.OptInv files s →
      Matcher.OptInv files (Matcher.optRuleLoop fromISO files mode rules ri s) := by
  intro rules
  induction rules with
  | nil => intro ri s hs; simpa [Matcher.optRuleLoop] using hs
  | cons unit rest ih =>
      intro ri s hs
      simp only [Matcher.optRuleLoop]
      cases hscan : Matcher.optScan fromISO files unit ri s
          (List.range' s.currentFileIndex (files.length - s.currentFileIndex)) with
      | some s' =>
          simp only [hscan]
          refine ih (ri + 1) s' (optScan_inv fromISO files unit ri _ s s' ?_ hs hscan)
          intro i hi
          rw [List.mem_range'_1] at hi
          obtain ⟨h1, h2⟩ := hi
          exact ⟨h1, by omega⟩
      | none =>
          simp only [hscan]
          split
          · exact hs
          · exact ih (ri + 1) s hs

/-- C2: for every input processed with Mode=Optional or
Mode=StrictOptional, the unmapped bucket is empty and the sizes of mapped,
wildcardMatched, optionalFiles and preFiltered sum to the number of input
records. -/
theorem optional_mode_partition (fromISO : String → Option Int)
    (files : List JsonFile) (rules : List RuleUnit)
    (sortFn : Option (JsonFile → JsonFile → Int))
    (preFilter : Option (List FilterCriterion)) (mode : Mode)
    (hmode : mode = Mode.optional ∨ mode = Mode.strictOptional) :
    (Matcher.filterFiles fromISO files rules sortFn preFilter mode).unmapped = [] ∧
    (Matcher.filterFiles fromISO files rules sortFn preFilter mode).mapped.length +
    (Matcher.filterFiles fromISO files rules sortFn preFilter mode).wildcardMatched.length +
    (Matcher.filterFiles fromISO files rules sortFn preFilter mode).optionalFiles.length +
    (Matcher.filterFiles fromISO files rules sortFn preFilter mode).preFiltered.length =
      files.length := by
  simp only [Matcher.filterFiles]
  rw [if_pos hmode]
  set fp := (match preFilter with
             | some pf => Matcher.applyPreFilter fromISO files pf
             | none => (files, ([] : List PreFilteredFile))) with hfp
  set sortedFiles := (match sortFn with
                      | some f => fp.1.mergeSort (fun a b => decide (f a b ≤ 0))
                      | none => fp.1) with hsorted
  have hsortlen : sortedFiles.length = fp.1.length := by
    rw [hsorted]
    cases sortFn with
    | none => rfl
    | some f => exact List.length_mergeSort fp.1
  have hfplen : fp.1.length + fp.2.length = files.length := by
    rw [hfp]
    cases preFilter with
    | none => simp
    | some pf => exact applyPreFilter_length fromISO pf files
  have hinv : Matcher.OptInv sortedFiles
      (Matcher.optRuleLoop fromISO sortedFiles mode rules 0 ⟨0, -1, none, [], [], [], []⟩) := by
    refine optRuleLoop_inv fromISO sortedFiles mode rules 0 _ ?_
    exact ⟨by simp, by simp [Matcher.optCount], by simp⟩
  constructor
  · simp [Matcher.filterFilesOptionalMode]
  · simp only [Matcher.filterFilesOptionalMode, List.length_append]
    set s := Matcher.optRuleLoop fromISO sortedFiles mode rules 0 ⟨0, -1, none, [], [], [], []⟩ with hsdef
    obtain ⟨hcur, hcount, hle2⟩ := hinv
    have hstart : (s.lastMatchedIndex + 1).toNat = s.currentFileIndex := by
      rw [hcur]; exact Int.toNat_natCast s.currentFileIndex
    rw [hstart, gapEntries_length sortedFiles _ _ _ s.currentFileIndex (by omega)]
    simp only [Matcher.optCount] at hcount
    omega

/-- C2 witness: the partition theorem applied to a concrete optional-mode
request with a skipped record between two matches. -/
theorem optional_mode_partition_witness :
    (Matcher.filterFiles (fun _ => none)
       [⟨"a", .obj [("t", .str "x")], none⟩,
        ⟨"g", .obj [("t", .str "gap")], none⟩,
        ⟨"b", .obj [("t", .str "y")], none⟩]
       [.one (.single { match_ := [⟨[.str "t"], .value (.str "x")⟩], expected := "X" }),
        .one (.single { match_ := [⟨[.str "t"], .value (.str "y")⟩], expected := "Y" })]
       none none Mode.optional).unmapped = [] ∧
    (Matcher.filterFiles (fun _ => none)
       [⟨"a", .obj [("t", .str "x")], none⟩,
        ⟨"g", .obj [("t", .str "gap")], none⟩,
        ⟨"b", .obj [("t", .str "y")], none⟩]
       [.one (.single { match_ := [⟨[.str "t"], .value (.str "x")⟩], expected := "X" }),
        .one (.single { match_ := [⟨[.str "t"], .value (.str "y")⟩], expected := "Y" })]
       none none Mode.optional).mapped.length +
    (Matcher.filterFiles (fun _ => none)
       [⟨"a", .obj [("t", .str "x")], none⟩,
        ⟨"g", .obj [("t", .str "gap")], none⟩,
        ⟨"b", .obj [("t", .str "y")], none⟩]
       [.one (.single { match_ := [⟨[.str "t"], .value (.str "x")⟩], expected := "X" }),
        .one (.single { match_ := [⟨[.str "t"], .value (.str "y")⟩], expected := "Y" })]
       none none Mode.optional).wildcardMatched.length +
    (Matcher.filterFiles (fun _ => none)
       [⟨"a", .obj [("t", .str "x")], none⟩,
        ⟨"g", .obj [("t", .str "gap")], none⟩,
        ⟨"b", .obj [("t", .str "y")], none⟩]
       [.one (.single { match_ := [⟨[.str "t"], .value (.str "x")⟩], expected := "X" }),
        .one (.single { match_ := [⟨[.str "t"], .value (.str "y")⟩], expected := "Y" })]
       none none Mode.optional).optionalFiles.length +
    (Matcher.filterFiles (fun _ => none)
       [⟨"a", .obj [("t", .str "x")], none⟩,
        ⟨"g", .obj [("t", .str "gap")], none⟩,
        ⟨"b", .obj [("t", .str "y")], none⟩]
       [.one (.single { match_ := [⟨[.str "t"], .value (.str "x")⟩], expected := "X" }),
        .one (.single { match_ := [⟨[.str "t"], .value (.str "y")⟩], expected := "Y" })]
       none none Mode.optional).preFiltered.length = 3 :=
  optional_mode_partition (fun _ => none) _ _ none none Mode.optional (Or.inl rfl)

theorem strictWalk_partition (fromISO : String → Option Int)
    (files : List JsonFile) (rules : List RuleUnit)
    (hmand : ∀ grp, RuleUnit.flex grp ∈ rules →
       grp.any Matcher.isMandatorySingle = true) :
    ∀ (fuel : Nat) (s : Matcher.StrictState),
      (files.length - s.fileIdx) + (rules.length - s.ruleIdx) < fuel →
      (∀ i ∈ s.matchedFileIndices, i < s.fileIdx) →
      Matcher.strictCount (Matcher.strictWalk fromISO files rules fuel s) =
        Matcher.strictCount s + (files.length - s.fileIdx) := by
  intro fuel
  induction fuel with
  | zero => intro s h _; omega
  | succ fuel ih =>
      intro s hfuel hmi
      simp only [Matcher.strictWalk]
      by_cases hf : s.fileIdx < files.length
      · rw [dif_pos hf]
        by_cases hr : s.ruleIdx < rules.length
        · rw [dif_pos hr]
          cases hget : rules.get ⟨s.ruleIdx, hr⟩ with
          | flex grp =>
              simp only [hget]
              have hany : grp.any Matcher.isMandatorySingle = true := by
                refine hmand grp ?_
                rw [← hget]
                exact List.get_mem rules _ _
              cases hfs : Matcher.flexScan fromISO (files.get ⟨s.fileIdx, hf⟩) grp 0
                  ((Matcher.flexGet s.usedFlex s.ruleIdx).getD []) [] with
              | mk attempted res =>
                  simp only [hfs]
                  cases res with
                  | some trip =>
                      obtain ⟨subIdx, sr, mr⟩ := trip
                      simp only []
                      rw [ih _ (by simp; split <;> omega) ?_]
                      · simp [Matcher.strictCount]
                        omega
                      · intro i hi
                        simp at hi ⊢
                        rcases hi with hi | rfl
                        · exact Nat.lt_succ_of_lt (hmi i hi)
                        · omega
                  | none =>
                      simp only [hany, if_pos]
                      rw [ih _ (by simp; split <;> omega) ?_]
                      · simp [Matcher.strictCount]
                        omega
                      · intro i hi
                        simp at hi ⊢
                        exact Nat.lt_succ_of_lt (hmi i hi)
          | one rule =>
              simp only [hget]
              by_cases hskip : isSingleMatchRule rule &&
                  s.usedStandalone.contains s.ruleIdx
              · rw [if_pos hskip]
                rw [ih _ (by simp; omega) (by simpa using hmi)]
                simp [Matcher.strictCount]
              · rw [if_neg hskip]
                by_cases hm : (Matcher.matchFile fromISO
                    (files.get ⟨s.fileIdx, hf⟩) rule).matched
                · rw [dif_pos hm]
                  cases rule with
                  | single sr =>
                      simp only []
                      rw [ih _ (by simp; omega) ?_]
                      · simp [Matcher.strictCount]
                        omega
                      · intro i hi
                        simp at hi ⊢
                        rcases hi with hi | rfl
                        · exact Nat.lt_succ_of_lt (hmi i hi)
                        · omega
                  | wildcard w =>
                      simp only []
                      rw [ih _ (by simp; split <;> omega) ?_]
                      · simp [Matcher.strictCount]
                        omega
                      · intro i hi
                        simp at hi ⊢
                        rcases hi with hi | rfl
                        · exact Nat.lt_succ_of_lt (hmi i hi)
                        · omega
                · rw [dif_neg hm]
                  by_cases hopt : ruleOptional rule
                  · rw [if_pos hopt]
                    rw [ih _ (by simp; omega) (by simpa using hmi)]
                    simp [Matcher.strictCount]
                  · rw [if_neg hopt]
                    rw [ih _ (by simp; omega) ?_]
                    · simp [Matcher.strictCount]
                      omega
                    · intro i hi
                      simp at hi ⊢
                      exact Nat.lt_succ_of_lt (hmi i hi)
        · rw [dif_neg hr]
          have hcont : s.matchedFileIndices.contains s.fileIdx = false := by
            by_contra hc
            have hmem : s.fileIdx ∈ s.matchedFileIndices := by
              have := Bool.eq_true_of_not_eq_false hc
              simpa using this
            exact absurd (hmi _ hmem) (by omega)
          rw [hcont]
          simp only [Bool.false_eq_true, if_false]
          rw [ih _ (by simp; omega) ?_]
          · simp [Matcher.strictCount]
            omega
          · intro i hi
            simp at hi ⊢
            exact Nat.lt_succ_of_lt (hmi i hi)
      · rw [dif_neg hf]
        have : files.length - s.fileIdx = 0 := by omega
        omega

/-- C1 counterexample: the claim asserts that in strict mode the bucket
sizes always sum to the number of input records.  A record that fails a
flexible group containing no mandatory member is dropped from every
bucket: with one record and the rule program `[[optional single rule that
does not match]]`, all four buckets are empty although one record was
supplied. -/
theorem strict_partition_counterexample :
    ¬ ((Matcher.filterFiles (fun _ => none)
          [⟨"f", .obj [("t", .str "x")], none⟩]
          [.flex [.single { match_ := [⟨[.str "missing"], .existsC true⟩],
                            expected := "r", optional := true }]]
          none none Mode.strict).mapped.length +
       (Matcher.filterFiles (fun _ => none)
          [⟨"f", .obj [("t", .str "x")], none⟩]
          [.flex [.single { match_ := [⟨[.str "missing"], .existsC true⟩],
                            expected := "r", optional := true }]]
          none none Mode.strict).wildcardMatched.length +
       (Matcher.filterFiles (fun _ => none)
          [⟨"f", .obj [("t", .str "x")], none⟩]
          [.flex [.single { match_ := [⟨[.str "missing"], .existsC true⟩],
                            expected := "r", optional := true }]]
          none none Mode.strict).unmapped.length +
       (Matcher.filterFiles (fun _ => none)
          [⟨"f", .obj [("t", .str "x")], none⟩]
          [.flex [.single { match_ := [⟨[.str "missing"], .existsC true⟩],
                            expected := "r", optional := true }]]
          none none Mode.strict).preFiltered.length =
       ([⟨"f", .obj [("t", .str "x")], none⟩] : List JsonFile).length) := by
  decide

/-- C1 (amended): in strict mode the four buckets partition the input —
their sizes sum to the number of input records and optionalFiles is
empty — for the flat-rules matcher whenever every flexible group in the
program contains at least one mandatory (non-optional single) member.
Without that proviso a record failing an all-optional flexible group is
dropped from every bucket, and the grouped matcher
(filterFilesWithGroups) does not satisfy the partition either, since a
record may match the filters of zero or several groups. -/
theorem strict_partition_amended (fromISO : String → Option Int)
    (files : List JsonFile) (rules : List RuleUnit)
    (sortFn : Option (JsonFile → JsonFile → Int))
    (preFilter : Option (List FilterCriterion))
    (hmand : ∀ grp, RuleUnit.flex grp ∈ rules →
       grp.any Matcher.isMandatorySingle = true) :
    (Matcher.filterFiles fromISO files rules sortFn preFilter
       Mode.strict).mapped.length +
    (Matcher.filterFiles fromISO files rules sortFn preFilter
       Mode.strict).wildcardMatched.length +
    (Matcher.filterFiles fromISO files rules sortFn preFilter
       Mode.strict).unmapped.length +
    (Matcher.filterFiles fromISO files rules sortFn preFilter
       Mode.strict).preFiltered.length = files.length ∧
    (Matcher.filterFiles fromISO files rules sortFn preFilter
       Mode.strict).optionalFiles = [] := by
  simp only [Matcher.filterFiles]
  rw [if_neg (by simp)]
  set fp := (match preFilter with
             | some pf => Matcher.applyPreFilter fromISO files pf
             | none => (files, ([] : List PreFilteredFile))) with hfp
  set sortedFiles := (match sortFn with
                      | some f => fp.1.mergeSort (fun a b => decide (f a b ≤ 0))
                      | none => fp.1) with hsorted
  have hsortlen : sortedFiles.length = fp.1.length := by
    rw [hsorted]
    cases sortFn with
    | none => rfl
    | some f => exact List.length_mergeSort fp.1
  have hfplen : fp.1.length + fp.2.length = files.length := by
    rw [hfp]
    cases preFilter with
    | none => simp
    | some pf => exact applyPreFilter_length fromISO pf files
  have hcount := strictWalk_partition fromISO sortedFiles rules hmand
    (sortedFiles.length + rules.length + 1) ⟨0, 0, [], [], [], [], [], []⟩
    (by simp) (by simp)
  simp only [Matcher.strictCount] at hcount
  simp only [List.length_nil, Nat.zero_add, Nat.add_zero, Nat.sub_zero] at hcount
  refine ⟨?_, rfl⟩
  simp only []
  omega

/-- C1 witness: the amended partition applied to a concrete strict-mode
request whose only flexible group contains a mandatory member. -/
theorem strict_partition_amended_witness :
    (Matcher.filterFiles (fun _ => none)
       [⟨"f", .obj [("t", .str "x")], none⟩]
       [.flex [.single { match_ := [⟨[.str "t"], .existsC true⟩],
                         expected := "r" }]]
       none none Mode.strict).mapped.length +
    (Matcher.filterFiles (fun _ => none)
       [⟨"f", .obj [("t", .str "x")], none⟩]
       [.flex [.single { match_ := [⟨[.str "t"], .existsC true⟩],
                         expected := "r" }]]
       none none Mode.strict).wildcardMatched.length +
    (Matcher.filterFiles (fun _ => none)
       [⟨"f", .obj [("t", .str "x")], none⟩]
       [.flex [.single { match_ := [⟨[.str "t"], .existsC true⟩],
                         expected := "r" }]]
       none none Mode.strict).unmapped.length +
    (Matcher.filterFiles (fun _ => none)
       [⟨"f", .obj [("t", .str "x")], none⟩]
       [.flex [.single { match_ := [⟨[.str "t"], .existsC true⟩],
                         expected := "r" }]]
       none none Mode.strict).preFiltered.length =
      ([⟨"f", .obj [("t", .str "x")], none⟩] : List JsonFile).length ∧
    (Matcher.filterFiles (fun _ => none)
       [⟨"f", .obj [("t", .str "x")], none⟩]
       [.flex [.single { match_ := [⟨[.str "t"], .existsC true⟩],
                         expected := "r" }]]
       none none Mode.strict).optionalFiles = [] :=
  strict_partition_amended (fun _ => none) _ _ none none
    (by
      intro grp hgrp
      simp only [List.mem_singleton, RuleUnit.flex.injEq] at hgrp
      subst hgrp
      decide)

theorem strictWalk_rules_congr (fromISO : String → Option Int)
    (files : List JsonFile) :
    ∀ (fuel : Nat) (s : Matcher.StrictState) (rules1 rules2 : List RuleUnit),
      rules1.length = rules2.length →
      (∀ q, s.ruleIdx ≤ q → rules1.get? q = rules2.get? q) →
      Matcher.strictWalk fromISO files rules1 fuel s =
      Matcher.strictWalk fromISO files rules2 fuel s := by
  intro fuel
  induction fuel with
  | zero => intro s rules1 rules2 _ _; simp [Matcher.strictWalk]
  | succ fuel ih =>
      intro s rules1 rules2 hlen hq
      simp only [Matcher.strictWalk]
      by_cases hf : s.fileIdx < files.length
      · rw [dif_pos hf, dif_pos hf]
        by_cases hr : s.ruleIdx < rules1.length
        · have hr2 : s.ruleIdx < rules2.length := hlen ▸ hr
          rw [dif_pos hr, dif_pos hr2]
          have hget : rules1.get ⟨s.ruleIdx, hr⟩ = rules2.get ⟨s.ruleIdx, hr2⟩ := by
            have h1 := List.get?_eq_get hr
            have h2 := List.get?_eq_get hr2
            have := hq s.ruleIdx (Nat.le_refl _)
            rw [h1, h2] at this
            exact Option.some.inj this
          rw [← hget]
          cases hu : rules1.get ⟨s.ruleIdx, hr⟩ with
          | flex grp =>
              simp only []
              cases hfs : Matcher.flexScan fromISO (files.get ⟨s.fileIdx, hf⟩) grp 0
                  ((Matcher.flexGet s.usedFlex s.ruleIdx).getD []) [] with
              | mk attempted res =>
                  cases res with
                  | some trip =>
                      obtain ⟨subIdx, sr, mr⟩ := trip
                      simp only []
                      refine ih _ rules1 rules2 hlen ?_
                      intro q hq'
                      refine hq q ?_
                      simp at hq'
                      split at hq' <;> omega
                  | none =>
                      simp only []
                      refine ih _ rules1 rules2 hlen ?_
                      intro q hq'
                      refine hq q ?_
                      simp at hq'
                      split at hq' <;> omega
          | one rule =>
              simp only []
              by_cases hskip : isSingleMatchRule rule &&
                  s.usedStandalone.contains s.ruleIdx
              · rw [if_pos hskip, if_pos hskip]
                refine ih _ rules1 rules2 hlen ?_
                intro q hq'
                simp at hq'
                exact hq q (by omega)
              · rw [if_neg hskip, if_neg hskip]
                by_cases hm : (Matcher.matchFile fromISO
                    (files.get ⟨s.fileIdx, hf⟩) rule).matched
                · rw [dif_pos hm, dif_pos hm]
                  cases rule with
                  | single sr =>
                      simp only []
                      refine ih _ rules1 rules2 hlen ?_
                      intro q hq'
                      simp at hq'
                      exact hq q (by omega)
                  | wildcard w =>
                      simp only []
                      refine ih _ rules1 rules2 hlen ?_
                      intro q hq'
                      simp at hq'
                      refine hq q ?_
                      split at hq' <;> omega
                · rw [dif_neg hm, dif_neg hm]
                  by_cases hopt : ruleOptional rule
                  · rw [if_pos hopt, if_pos hopt]
                    refine ih _ rules1 rules2 hlen ?_
                    intro q hq'
                    simp at hq'
                    exact hq q (by omega)
                  · rw [if_neg hopt, if_neg hopt]
                    refine ih _ rules1 rules2 hlen ?_
                    intro q hq'
                    simp at hq'
                    exact hq q (by omega)
        · have hr2 : ¬ s.ruleIdx < rules2.length := hlen ▸ hr
          rw [dif_neg hr, dif_neg hr2]
          refine ih _ rules1 rules2 hlen ?_
          intro q hq'
          refine hq q ?_
          split at hq' <;> simpa using hq'
      · rw [dif_neg hf, dif_neg hf]

theorem wildAbsorb_zero (fromISO : String → Option Int)
    (files : List JsonFile) (w : WildcardMatchRule) (s : Matcher.StrictState) :
    Matcher.wildAbsorb fromISO files w s 0 = s := by
  simp [Matcher.wildAbsorb]

theorem wildAbsorb_succ (fromISO : String → Option Int)
    (files : List JsonFile) (w : WildcardMatchRule) (s : Matcher.StrictState)
    (k : Nat) (f : JsonFile) (hget : files.get? s.fileIdx = some f) :
    Matcher.wildAbsorb fromISO files w s (k + 1) =
    Matcher.wildAbsorb fromISO files w
      { s with
        fileIdx := s.fileIdx + 1,
        matchedFileIndices := s.matchedFileIndices ++ [s.fileIdx],
        wildcardMatched := s.wildcardMatched ++
          [⟨f, Matcher.matchFile fromISO f (.wildcard w), w.info⟩] } k := by
  simp only [Matcher.wildAbsorb, List.range'_succ, List.filterMap_cons, hget,
             Option.map_some', List.append_assoc, List.singleton_append,
             Matcher.StrictState.mk.injEq]
  exact ⟨by omega, by simp⟩

/-- C7: in the strict consumption walk, when the rule cursor sits on a
greedy wildcard rule and the next k records all match it while the record
at offset k does not (or the records run out), exactly those k records are
emitted to wildcardMatched with the file cursor advancing and the rule
cursor staying on the wildcard; at the first non-matching record the rule
cursor advances past the wildcard and the remainder of the walk is the
walk from that state — a continuation that provably never consults the
wildcard's slot again (replacing any rule at or before the wildcard's
index leaves it unchanged), so the rule is visited exactly once. -/
theorem greedy_wildcard_absorption (fromISO : String → Option Int)
    (files : List JsonFile) (rules : List RuleUnit) (w : WildcardMatchRule)
    (hg : w.greedy = true) :
    ∀ (k fuel : Nat) (s : Matcher.StrictState),
      rules.get? s.ruleIdx = some (.one (.wildcard w)) →
      k + 1 ≤ fuel →
      (∀ j, j < k → ∃ f, files.get? (s.fileIdx + j) = some f ∧
         (Matcher.matchFile fromISO f (.wildcard w)).matched = true) →
      (files.get? (s.fileIdx + k) = none →
         Matcher.strictWalk fromISO files rules fuel s =
           Matcher.wildAbsorb fromISO files w s k) ∧
      (∀ f, files.get? (s.fileIdx + k) = some f →
         (Matcher.matchFile fromISO f (.wildcard w)).matched = false →
         (Matcher.strictWalk fromISO files rules fuel s =
            Matcher.strictWalk fromISO files rules (fuel - (k + 1))
              { Matcher.wildAbsorb fromISO files w s k with
                ruleIdx := s.ruleIdx + 1 }) ∧
         (∀ rules2 : List RuleUnit, rules2.length = rules.length →
            (∀ q, s.ruleIdx + 1 ≤ q → rules2.get? q = rules.get? q) →
            Matcher.strictWalk fromISO files rules2 (fuel - (k + 1))
              { Matcher.wildAbsorb fromISO files w s k with
                ruleIdx := s.ruleIdx + 1 } =
            Matcher.strictWalk fromISO files rules (fuel - (k + 1))
              { Matcher.wildAbsorb fromISO files w s k with
                ruleIdx := s.ruleIdx + 1 })) := by
  intro k
  induction k with
  | zero =>
      intro fuel s hrule hfuel hmatch
      obtain ⟨m, rfl⟩ : ∃ m, fuel = m + 1 := ⟨fuel - 1, by omega⟩
      obtain ⟨hrlt, hruleeq⟩ := List.get?_eq_some.mp hrule
      constructor
      · intro hnone
        rw [Nat.add_zero] at hnone
        have hge := List.get?_eq_none.mp hnone
        rw [wildAbsorb_zero]
        simp only [Matcher.strictWalk]
        rw [dif_neg (by omega)]
      · intro f hgetf hnm
        rw [Nat.add_zero] at hgetf
        obtain ⟨hflt, hgeteq⟩ := List.get?_eq_some.mp hgetf
        constructor
        · simp only [Matcher.strictWalk]
          rw [dif_pos hflt, dif_pos hrlt, hruleeq]
          simp only []
          rw [if_neg (by simp [isSingleMatchRule])]
          rw [hgeteq]
          rw [dif_neg (by simp [hnm])]
          rw [if_pos (by simp [ruleOptional])]
          rw [wildAbsorb_zero]
          simp only [Nat.add_sub_cancel]
        · intro rules2 hlen2 hagree
          refine strictWalk_rules_congr fromISO files _ _ rules2 rules hlen2 ?_
          intro q hq'
          refine hagree q ?_
          simpa [wildAbsorb_zero] using hq'
  | succ k ihk =>
      intro fuel s hrule hfuel hmatch
      obtain ⟨m, rfl⟩ : ∃ m, fuel = m + 1 := ⟨fuel - 1, by omega⟩
      obtain ⟨hrlt, hruleeq⟩ := List.get?_eq_some.mp hrule
      obtain ⟨f0, hget0, hm0⟩ := hmatch 0 (by omega)
      rw [Nat.add_zero] at hget0
      obtain ⟨hflt, hgeteq⟩ := List.get?_eq_some.mp hget0
      have hstep : Matcher.strictWalk fromISO files rules (m + 1) s =
          Matcher.strictWalk fromISO files rules m
            { s with
              fileIdx := s.fileIdx + 1,
              matchedFileIndices := s.matchedFileIndices ++ [s.fileIdx],
              wildcardMatched := s.wildcardMatched ++
                [⟨f0, Matcher.matchFile fromISO f0 (.wildcard w), w.info⟩] } := by
        simp only [Matcher.strictWalk]
        rw [dif_pos hflt, dif_pos hrlt, hruleeq]
        simp only []
        rw [if_neg (by simp [isSingleMatchRule])]
        rw [hgeteq]
        rw [dif_pos hm0]
        simp only [hg, if_true]
      have hmatch' : ∀ j, j < k → ∃ f, files.get?
          (({ s with
              fileIdx := s.fileIdx + 1,
              matchedFileIndices := s.matchedFileIndices ++ [s.fileIdx],
              wildcardMatched := s.wildcardMatched ++
                [⟨f0, Matcher.matchFile fromISO f0 (.wildcard w), w.info⟩]
            } : Matcher.StrictState).fileIdx + j) = some f ∧
          (Matcher.matchFile fromISO f (.wildcard w)).matched = true := by
        intro j hj
        obtain ⟨f, hget, hm⟩ := hmatch (j + 1) (by omega)
        refine ⟨f, ?_, hm⟩
        have harith : s.fileIdx + 1 + j = s.fileIdx + (j + 1) := by omega
        simpa [harith] using hget
      have IH := ihk m
        { s with
          fileIdx := s.fileIdx + 1,
          matchedFileIndices := s.matchedFileIndices ++ [s.fileIdx],
          wildcardMatched := s.wildcardMatched ++
            [⟨f0, Matcher.matchFile fromISO f0 (.wildcard w), w.info⟩] }
        (by simpa using hrule) (by omega) hmatch'
      constructor
      · intro hnone
        rw [hstep]
        have hnone' : files.get?
            (({ s with
                fileIdx := s.fileIdx + 1,
                matchedFileIndices := s.matchedFileIndices ++ [s.fileIdx],
                wildcardMatched := s.wildcardMatched ++
                  [⟨f0, Matcher.matchFile fromISO f0 (.wildcard w), w.info⟩]
              } : Matcher.StrictState).fileIdx + k) = none := by
          have harith : s.fileIdx + 1 + k = s.fileIdx + (k + 1) := by omega
          simpa [harith] using hnone
        rw [IH.1 hnone']
        rw [wildAbsorb_succ fromISO files w s k f0 hget0]
      · intro f hgetf hnm
        have hgetf' : files.get?
            (({ s with
                fileIdx := s.fileIdx + 1,
                matchedFileIndices := s.matchedFileIndices ++ [s.fileIdx],
                wildcardMatched := s.wildcardMatched ++
                  [⟨f0, Matcher.matchFile fromISO f0 (.wildcard w), w.info⟩]
              } : Matcher.StrictState).fileIdx + k) = some f := by
          have harith : s.fileIdx + 1 + k = s.fileIdx + (k + 1) := by omega
          simpa [harith] using hgetf
        have H2 := IH.2 f hgetf' hnm
        constructor
        · rw [hstep, H2.1]
          rw [show m - (k + 1) = m + 1 - (k + 1 + 1) by omega]
          rw [wildAbsorb_succ fromISO files w s k f0 hget0]
        · intro rules2 hlen2 hagree
          refine strictWalk_rules_congr fromISO files _ _ rules2 rules hlen2 ?_
          intro q hq'
          refine hagree q ?_
          simpa using hq'

/-- C7 witness: the absorption theorem applied to a concrete walk in which
a greedy wildcard absorbs exactly the two matching records before a
non-matching one. -/
theorem greedy_wildcard_absorption_witness :
    Matcher.strictWalk (fun _ => none)
      [⟨"o1", .obj [("opt", .bool true)], none⟩,
       ⟨"o2", .obj [("opt", .bool true)], none⟩,
       ⟨"x", .obj [("other", .bool true)], none⟩]
      [.one (.wildcard { matchAny := [⟨[.str "opt"], .existsC true⟩],
                         greedy := true })]
      4 ⟨0, 0, [], [], [], [], [], []⟩ =
    Matcher.strictWalk (fun _ => none)
      [⟨"o1", .obj [("opt", .bool true)], none⟩,
       ⟨"o2", .obj [("opt", .bool true)], none⟩,
       ⟨"x", .obj [("other", .bool true)], none⟩]
      [.one (.wildcard { matchAny := [⟨[.str "opt"], .existsC true⟩],
                         greedy := true })]
      (4 - (2 + 1))
      { Matcher.wildAbsorb (fun _ => none)
          [⟨"o1", .obj [("opt", .bool true)], none⟩,
           ⟨"o2", .obj [("opt", .bool true)], none⟩,
           ⟨"x", .obj [("other", .bool true)], none⟩]
          { matchAny := [⟨[.str "opt"], .existsC true⟩], greedy := true }
          ⟨0, 0, [], [], [], [], [], []⟩ 2 with
        ruleIdx := 1 } :=
  ((greedy_wildcard_absorption (fun _ => none)
      [⟨"o1", .obj [("opt", .bool true)], none⟩,
       ⟨"o2", .obj [("opt", .bool true)], none⟩,
       ⟨"x", .obj [("other", .bool true)], none⟩]
      [.one (.wildcard { matchAny := [⟨[.str "opt"], .existsC true⟩],
                         greedy := true })]
      { matchAny := [⟨[.str "opt"], .existsC true⟩], greedy := true }
      rfl 2 4 ⟨0, 0, [], [], [], [], [], []⟩ rfl (by omega)
      (by
        intro j hj
        interval_cases j
        · exact ⟨⟨"o1", .obj [("opt", .bool true)], none⟩, rfl, rfl⟩
        · exact ⟨⟨"o2", .obj [("opt", .bool true)], none⟩, rfl, rfl⟩)).2
    ⟨"x", .obj [("other", .bool true)], none⟩ rfl rfl).1

theorem getValueLoop_acc :
    ∀ (p : List PathElement) (t : Json) (acc : List PathElement),
      getValueLoop t p acc =
        { getValueLoop t p [] with
          validPath := acc ++ (getValueLoop t p []).validPath } := by
  intro p
  induction p with
  | nil => intro t acc; simp [getValueLoop]
  | cons seg rest ih =>
      intro t acc
      cases t with
      | null => simp [getValueLoop]
      | bool b => simp [getValueLoop]
      | num n => simp [getValueLoop]
      | str s => simp [getValueLoop]
      | arr xs =>
          simp only [getValueLoop]
          cases hidx : (match seg with
                        | .num n => some n
                        | .str s => parseIntJS s : Option Int) with
          | none => simp
          | some index =>
              simp only []
              by_cases hb : index < 0 ∨ (xs.length : Int) ≤ index
              · rw [dif_pos hb, dif_pos hb]
                simp
              · rw [dif_neg hb, dif_neg hb]
                rw [ih (xs.get ⟨index.toNat, by omega⟩) (acc ++ [PathElement.num index]),
                    ih (xs.get ⟨index.toNat, by omega⟩) ([] ++ [PathElement.num index])]
                simp
      | obj kvs =>
          simp only [getValueLoop]
          cases hfind : kvs.find? (fun q => q.1 = pathElementToString seg) with
          | none => simp
          | some q =>
              simp only []
              rw [ih q.2 (acc ++ [PathElement.str (pathElementToString seg)]),
                  ih q.2 ([] ++ [PathElement.str (pathElementToString seg)])]
              simp

theorem stepResolve_some_loop (t : Json) (seg : PathElement)
    (st : PathElement) (child : Json)
    (h : stepResolve t seg = some (st, child)) :
    ∀ (rest acc : List PathElement),
      getValueLoop t (seg :: rest) acc = getValueLoop child rest (acc ++ [st]) := by
  intro rest acc
  cases t with
  | null => simp [stepResolve] at h
  | bool b => simp [stepResolve] at h
  | num n => simp [stepResolve] at h
  | str s => simp [stepResolve] at h
  | obj kvs =>
      simp only [stepResolve] at h
      cases hfind : kvs.find? (fun q => q.1 = pathElementToString seg) with
      | none => simp [hfind] at h
      | some q =>
          simp only [hfind, Option.map_some'] at h
          injection h with h2
          injection h2 with hst hchild
          simp only [getValueLoop, hfind]
          rw [hst, hchild]
  | arr xs =>
      cases seg with
      | num n =>
          simp only [stepResolve] at h
          by_cases hb : (n : Int) < 0 ∨ (xs.length : Int) ≤ n
          · rw [if_pos hb] at h; simp at h
          · rw [if_neg hb] at h
            have hlt : (n : Int).toNat < xs.length := by omega
            rw [List.get?_eq_get hlt] at h
            simp only [Option.map_some'] at h
            injection h with h2
            injection h2 with hst hchild
            simp only [getValueLoop]
            rw [dif_neg hb]
            rw [hst, hchild]
      | str s =>
          simp only [stepResolve] at h
          cases hps : parseIntJS s with
          | none => simp [hps] at h
          | some index =>
              simp only [hps] at h
              by_cases hb : index < 0 ∨ (xs.length : Int) ≤ index
              · rw [if_pos hb] at h; simp at h
              · rw [if_neg hb] at h
                have hlt : index.toNat < xs.length := by omega
                rw [List.get?_eq_get hlt] at h
                simp only [Option.map_some'] at h
                injection h with h2
                injection h2 with hst hchild
                simp only [getValueLoop, hps]
                rw [dif_neg hb]
                rw [hst, hchild]

theorem stepResolve_none_loop (t : Json) (seg : PathElement)
    (h : stepResolve t seg = none) :
    ∀ (rest acc : List PathElement),
      (getValueLoop t (seg :: rest) acc).found = false ∧
      (getValueLoop t (seg :: rest) acc).validPath = acc ∧
      (getValueLoop t (seg :: rest) acc).value = none := by
  intro rest acc
  cases t with
  | null => simp [getValueLoop]
  | bool b => simp [getValueLoop]
  | num n => simp [getValueLoop]
  | str s => simp [getValueLoop]
  | obj kvs =>
      simp only [stepResolve] at h
      simp only [getValueLoop]
      cases hfind : kvs.find? (fun q => q.1 = pathElementToString seg) with
      | none => simp
      | some q => simp [hfind] at h
  | arr xs =>
      cases seg with
      | num n =>
          simp only [stepResolve] at h
          simp only [getValueLoop]
          by_cases hb : (n : Int) < 0 ∨ (xs.length : Int) ≤ n
          · rw [dif_pos hb]
            simp
          · rw [if_neg hb] at h
            have hlt : (n : Int).toNat < xs.length := by omega
            rw [List.get?_eq_get hlt] at h
            simp at h
      | str s =>
          simp only [stepResolve] at h
          simp only [getValueLoop]
          cases hps : parseIntJS s with
          | none => simp [hps]
          | some index =>
              simp only [hps] at h ⊢
              by_cases hb : index < 0 ∨ (xs.length : Int) ≤ index
              · rw [dif_pos hb]
                simp
              · rw [if_neg hb] at h
                have hlt : index.toNat < xs.length := by omega
                rw [List.get?_eq_get hlt] at h
                simp at h

theorem stepFails_iff (t : Json) (seg : PathElement) :
    stepFails t seg = true ↔ stepResolve t seg = none := by
  cases t with
  | null => simp [stepFails, stepResolve]
  | bool b => simp [stepFails, stepResolve]
  | num n => simp [stepFails, stepResolve]
  | str s => simp [stepFails, stepResolve]
  | obj kvs =>
      simp only [stepFails, stepResolve]
      cases hfind : kvs.find? (fun q => q.1 = pathElementToString seg) with
      | none =>
          simp only [Option.map_none', iff_true]
          rw [List.find?_eq_none] at hfind
          simp only [Bool.not_eq_true']
          rw [List.contains_eq_any_beq]
          simp only [List.any_eq_false]
          intro k hk
          simp only [List.mem_map] at hk
          obtain ⟨q, hq, rfl⟩ := hk
          have hne : q.1 ≠ pathElementToString seg := by simpa using hfind q hq
          simp only [beq_iff_eq]
          exact fun hh => hne hh.symm
      | some q =>
          have hq1 : q.1 = pathElementToString seg := by
            have := List.find?_some hfind
            simpa using this
          simp only [Option.map_some', iff_false, Bool.not_eq_true',
                     Bool.not_eq_false]
          have hmem : pathElementToString seg ∈ kvs.map Prod.fst := by
            rw [← hq1]
            exact List.mem_map_of_mem _ (List.mem_of_find?_eq_some hfind)
          simpa using hmem
  | arr xs =>
      cases seg with
      | num n =>
          simp only [stepFails, stepResolve]
          by_cases hb : (n : Int) < 0 ∨ (xs.length : Int) ≤ n
          · rw [if_pos hb]
            simp [hb]
          · rw [if_neg hb]
            have hlt : (n : Int).toNat < xs.length := by omega
            rw [List.get?_eq_get hlt]
            simp [hb]
      | str s =>
          simp only [stepFails, stepResolve]
          cases hps : parseIntJS s with
          | none => simp [hps]
          | some index =>
              simp only [hps]
              by_cases hb : index < 0 ∨ (xs.length : Int) ≤ index
              · rw [if_pos hb]
                simp [hb]
              · rw [if_neg hb]
                have hlt : index.toNat < xs.length := by omega
                rw [List.get?_eq_get hlt]
                simp [hb]

theorem getValueFromPath_cons_some (t : Json) (seg st : PathElement)
    (child : Json) (h : stepResolve t seg = some (st, child))
    (rest : List PathElement) :
    (getValueFromPath t (seg :: rest)).found = (getValueFromPath child rest).found ∧
    (getValueFromPath t (seg :: rest)).value = (getValueFromPath child rest).value ∧
    (getValueFromPath t (seg :: rest)).validPath =
      st :: (getValueFromPath child rest).validPath := by
  unfold getValueFromPath
  rw [stepResolve_some_loop t seg st child h rest []]
  rw [getValueLoop_acc rest child ([] ++ [st])]
  simp

theorem found_false_iff :
    ∀ (p : List PathElement) (t : Json),
      (getValueFromPath t p).found = false ↔
        ∃ k seg, p.get? k = some seg ∧
          (getValueFromPath t (p.take k)).found = true ∧
          ∃ n, (getValueFromPath t (p.take k)).value = some n ∧
            stepFails n seg = true := by
  intro p
  induction p with
  | nil =>
      intro t
      constructor
      · intro h; simp [getValueFromPath, getValueLoop] at h
      · rintro ⟨k, seg, hk, _⟩; simp at hk
  | cons seg rest ih =>
      intro t
      cases hstep : stepResolve t seg with
      | none =>
          obtain ⟨hfound, hvp, hval⟩ := stepResolve_none_loop t seg hstep rest []
          constructor
          · intro _
            refine ⟨0, seg, rfl, by simp [getValueFromPath, getValueLoop],
                    t, by simp [getValueFromPath, getValueLoop],
                    (stepFails_iff t seg).mpr hstep⟩
          · intro _
            exact hfound
      | some pr =>
          obtain ⟨st, child⟩ := pr
          have hc := fun r => getValueFromPath_cons_some t seg st child hstep r
          constructor
          · intro h
            have hchild : (getValueFromPath child rest).found = false := by
              rw [← (hc rest).1]; exact h
            obtain ⟨k', seg', hk', hfnd, n, hval, hsf⟩ := (ih child).mp hchild
            refine ⟨k' + 1, seg', by simpa using hk', ?_, n, ?_, hsf⟩
            · simp only [List.take_succ_cons]
              rw [(hc (rest.take k')).1]
              exact hfnd
            · simp only [List.take_succ_cons]
              rw [(hc (rest.take k')).2.1]
              exact hval
          · rintro ⟨k, seg', hk, hfnd, n, hval, hsf⟩
            cases k with
            | zero =>
                simp only [List.get?_cons_zero] at hk
                have hseg : seg' = seg := (Option.some.inj hk).symm
                subst hseg
                have hnt : n = t := by
                  have := hval
                  simp [getValueFromPath, getValueLoop] at this
                  exact this.symm
                subst hnt
                rw [stepFails_iff] at hsf
                rw [hstep] at hsf
                simp at hsf
            | succ k' =>
                rw [(hc rest).1]
                refine (ih child).mpr ⟨k', seg', by simpa using hk, ?_, n, ?_, hsf⟩
                · rw [← (hc (rest.take k')).1]
                  simpa [List.take_succ_cons] using hfnd
                · rw [← (hc (rest.take k')).2.1]
                  simpa [List.take_succ_cons] using hval

theorem found_false_validPath :
    ∀ (p : List PathElement) (t : Json),
      (getValueFromPath t p).found = false →
        ∃ k, (getValueFromPath t (p.take k)).found = true ∧
          (getValueFromPath t p).validPath =
            (getValueFromPath t (p.take k)).validPath ∧
          (getValueFromPath t (p.take k)).validPath.length = k ∧
          (getValueFromPath t (p.take (k + 1))).found = false := by
  intro p
  induction p with
  | nil => intro t h; simp [getValueFromPath, getValueLoop] at h
  | cons seg rest ih =>
      intro t h
      cases hstep : stepResolve t seg with
      | none =>
          obtain ⟨hfound, hvp, hval⟩ := stepResolve_none_loop t seg hstep rest []
          refine ⟨0, by simp [getValueFromPath, getValueLoop], ?_,
                  by simp [getValueFromPath, getValueLoop], ?_⟩
          · simpa [getValueFromPath, getValueLoop] using hvp
          · simp only [List.take_succ_cons, List.take_nil]
            exact (stepResolve_none_loop t seg hstep [] []).1
      | some pr =>
          obtain ⟨st, child⟩ := pr
          have hc := fun r => getValueFromPath_cons_some t seg st child hstep r
          have hchild : (getValueFromPath child rest).found = false := by
            rw [← (hc rest).1]; exact h
          obtain ⟨k', hf', hvp', hlen', hf1'⟩ := ih child hchild
          refine ⟨k' + 1, ?_, ?_, ?_, ?_⟩
          · simp only [List.take_succ_cons]
            rw [(hc (rest.take k')).1]
            exact hf'
          · simp only [List.take_succ_cons]
            rw [(hc rest).2.2, (hc (rest.take k')).2.2, hvp']
          · simp only [List.take_succ_cons]
            rw [(hc (rest.take k')).2.2]
            simp [hlen']
          · simp only [List.take_succ_cons]
            rw [(hc (rest.take (k' + 1))).1]
            exact hf1'

theorem found_take :
    ∀ (p : List PathElement) (t : Json) (j : Nat),
      (getValueFromPath t p).found = true →
      (getValueFromPath t (p.take j)).found = true := by
  intro p
  induction p with
  | nil =>
      intro t j h
      simpa [List.take_nil] using h
  | cons seg rest ih =>
      intro t j h
      cases hstep : stepResolve t seg with
      | none =>
          have hfalse := (stepResolve_none_loop t seg hstep rest []).1
          unfold getValueFromPath at h
          rw [hfalse] at h
          simp at h
      | some pr =>
          obtain ⟨st, child⟩ := pr
          cases j with
          | zero => simp [getValueFromPath, getValueLoop]
          | succ j' =>
              simp only [List.take_succ_cons]
              rw [(getValueFromPath_cons_some t seg st child hstep (rest.take j')).1]
              refine ih child j' ?_
              rw [← (getValueFromPath_cons_some t seg st child hstep rest).1]
              exact h

/-- C8 counterexample: the claim asserts that on failure the returned
validPath is the longest prefix *of the path* that resolved.  The accessor
records coerced steps — a string segment used as an array index is stored
as the parsed number — so the recorded validPath need not be a prefix of
the path: on tree `[[5]]` and path `["0", 3]` the walk fails at the
out-of-bounds index 3 with validPath `[0]` (a number), while the longest
resolving prefix of the path is `["0"]` (a string). -/
theorem getValueFromPath_validPath_counterexample :
    (getValueFromPath (.arr [.arr [.num 5]]) [.str "0", .num 3]).found = false ∧
    (getValueFromPath (.arr [.arr [.num 5]])
       ([.str "0", .num 3].take 1)).found = true ∧
    (getValueFromPath (.arr [.arr [.num 5]]) [.str "0", .num 3]).validPath ≠
      [.str "0", .num 3].take 1 := by
  refine ⟨rfl, rfl, ?_⟩
  intro h
  simp [getValueFromPath, getValueLoop, parseIntJS, parseDigits] at h

/-- C8 (amended): the path accessor resolves the empty path to the tree
itself with found=true; it returns found=false exactly when some resolving
prefix is followed by a failing step — a null node with steps remaining,
an array node whose segment does not coerce via `parseInt` to an in-bounds
index, an object node lacking the stringified key, or a scalar node with
steps remaining (`stepFails`); every prefix of a resolving path resolves;
and in every failure case the returned validPath equals the recorded
(coerced: parsed array indices, stringified object keys) steps of the
longest prefix that did resolve — the same validPath the accessor returns
for that prefix, with one recorded step per resolved segment. -/
theorem getValueFromPath_characterization :
    (∀ t : Json, getValueFromPath t [] = ⟨some t, true, none, []⟩) ∧
    (∀ (t : Json) (p : List PathElement),
       (getValueFromPath t p).found = false ↔
         ∃ k seg, p.get? k = some seg ∧
           (getValueFromPath t (p.take k)).found = true ∧
           ∃ n, (getValueFromPath t (p.take k)).value = some n ∧
             stepFails n seg = true) ∧
    (∀ (t : Json) (p : List PathElement),
       (getValueFromPath t p).found = false →
         ∃ k, (getValueFromPath t (p.take k)).found = true ∧
           (getValueFromPath t p).validPath =
             (getValueFromPath t (p.take k)).validPath ∧
           (getValueFromPath t (p.take k)).validPath.length = k ∧
           (getValueFromPath t (p.take (k + 1))).found = false) ∧
    (∀ (t : Json) (p : List PathElement) (j : Nat),
       (getValueFromPath t p).found = true →
       (getValueFromPath t (p.take j)).found = true) :=
  ⟨fun _ => rfl, fun t p => found_false_iff p t,
   fun t p => found_false_validPath p t, fun t p j => found_take p t j⟩

/-- C8 witness: the characterization applied to the concrete failing
access of tree `[[5]]` with path `["0", 3]`. -/
theorem getValueFromPath_characterization_witness :
    ∃ k, (getValueFromPath (.arr [.arr [.num 5]])
            ([.str "0", .num 3].take k)).found = true ∧
      (getValueFromPath (.arr [.arr [.num 5]]) [.str "0", .num 3]).validPath =
        (getValueFromPath (.arr [.arr [.num 5]])
           ([.str "0", .num 3].take k)).validPath ∧
      (getValueFromPath (.arr [.arr [.num 5]])
         ([.str "0", .num 3].take k)).validPath.length = k ∧
      (getValueFromPath (.arr [.arr [.num 5]])
         ([.str "0", .num 3].take (k + 1))).found = false :=
  getValueFromPath_characterization.2.2.1 (.arr [.arr [.num 5]])
    [.str "0", .num 3] rfl

theorem digitsVal_append (ds : List Nat) (d : Nat) :
    digitsVal (ds ++ [d]) = digitsVal ds * 10 + d := by
  simp [digitsVal, List.foldl_append]

theorem digitsVal_natDigits : ∀ n : Nat, digitsVal (natDigits n) = n := by
  intro n
  induction n using Nat.strong_induction_on with
  | _ n ih =>
      rw [natDigits]
      by_cases h : n < 10
      · rw [dif_pos h]
        simp [digitsVal]
      · rw [dif_neg h]
        rw [digitsVal_append]
        rw [ih (n / 10) (Nat.div_lt_self (by omega) (by omega))]
        omega

theorem natDigits_lt10 : ∀ n d : Nat, d ∈ natDigits n → d < 10 := by
  intro n
  induction n using Nat.strong_induction_on with
  | _ n ih =>
      intro d hd
      rw [natDigits] at hd
      by_cases h : n < 10
      · rw [dif_pos h] at hd
        simp at hd
        omega
      · rw [dif_neg h] at hd
        simp only [List.mem_append, List.mem_singleton] at hd
        rcases hd with hd | hd
        · exact ih (n / 10) (Nat.div_lt_self (by omega) (by omega)) d hd
        · omega

theorem natToString_injective : Function.Injective natToString := by
  intro m n h
  unfold natToString at h
  have hdata : ((natDigits m).map fun d => Char.ofNat (48 + d)) =
               ((natDigits n).map fun d => Char.ofNat (48 + d)) := by
    injection h
  have hrec : ∀ p : Nat, ((natDigits p).map fun d => Char.ofNat (48 + d)).map
      (fun c => c.toNat - 48) = natDigits p := by
    intro p
    rw [List.map_map]
    conv_rhs => rw [← List.map_id (natDigits p)]
    apply List.map_congr_left
    intro d hd
    have hd10 : d < 10 := natDigits_lt10 p d hd
    interval_cases d <;> decide
  have hds : natDigits m = natDigits n := by
    rw [← hrec m, ← hrec n, hdata]
  rw [← digitsVal_natDigits m, ← digitsVal_natDigits n, hds]

theorem wfList_mem : ∀ (xs : List Json), wfList xs = true →
    ∀ x ∈ xs, wfJson x = true := by
  intro xs
  induction xs with
  | nil => intro _ x hx; simp at hx
  | cons y ys ih =>
      intro h x hx
      rw [wfList] at h
      simp only [Bool.and_eq_true] at h
      rcases List.mem_cons.mp hx with rfl | hx
      · exact h.1
      · exact ih h.2 x hx

theorem wfKV_mem : ∀ (kvs : List (String × Json)), wfKV kvs = true →
    ∀ p ∈ kvs, wfJson p.2 = true := by
  intro kvs
  induction kvs with
  | nil => intro _ p hp; simp at hp
  | cons q qs ih =>
      intro h p hp
      rw [wfKV] at h
      simp only [Bool.and_eq_true] at h
      rcases List.mem_cons.mp hp with rfl | hp
      · exact h.1
      · exact ih h.2 p hp


theorem natDigits_ne_nil (n : Nat) : natDigits n ≠ [] := by
  rw [natDigits]
  by_cases h : n < 10
  · rw [dif_pos h]; simp
  · rw [dif_neg h]; simp

theorem natToString_ne_length (n : Nat) : natToString n ≠ "length" := by
  intro h
  have hd : (natDigits n).map (fun d => Char.ofNat (48 + d)) = "length".data :=
    congrArg String.data h
  cases hnil : natDigits n with
  | nil => exact natDigits_ne_nil n hnil
  | cons d ds =>
      rw [hnil] at hd
      have hlen : "length".data = ['l', 'e', 'n', 'g', 't', 'h'] := rfl
      rw [hlen, List.map_cons] at hd
      have hdlt : d < 10 :=
        natDigits_lt10 n d (by rw [hnil]; exact List.mem_cons_self d ds)
      injection hd with h1 h2
      interval_cases d <;> exact absurd h1 (by decide)

theorem jsize_pos (v : Json) : 1 ≤ jsize v := by
  cases v <;> (rw [jsize]) <;> omega

theorem jsizeL_of_mem : ∀ (xs : List Json), ∀ x ∈ xs, jsize x < jsizeL xs := by
  intro xs
  induction xs with
  | nil => intro x hx; simp at hx
  | cons y ys ih =>
      intro x hx
      rw [jsizeL]
      rcases List.mem_cons.mp hx with rfl | hx
      · omega
      · have := ih x hx; omega

theorem jsizeKV_of_mem : ∀ (kvs : List (String × Json)), ∀ p ∈ kvs,
    jsize p.2 < jsizeKV kvs := by
  intro kvs
  induction kvs with
  | nil => intro p hp; simp at hp
  | cons q qs ih =>
      intro p hp
      rw [jsizeKV]
      rcases List.mem_cons.mp hp with rfl | hp
      · omega
      · have := ih p hp; omega

theorem jsProp_jsize_lt {a : Json} {k : String} {v : Json}
    (h : jsProp a k = some v) : jsize v < jsize a := by
  cases a with
  | arr xs =>
      simp only [jsProp] at h
      by_cases hl : k = "length"
      · rw [if_pos hl] at h
        have hv : v = .num (xs.length : Int) := (Option.some.inj h).symm
        subst hv
        simp only [jsize]
        omega
      · rw [if_neg hl] at h
        cases hf : (List.range xs.length).find? (fun i => natToString i = k) with
        | none => simp [hf] at h
        | some i =>
            simp only [hf] at h
            have hmem := jsizeL_of_mem xs v (List.get?_mem h)
            simp only [jsize]
            omega
  | obj kvs =>
      simp only [jsProp] at h
      cases hf : kvs.find? (fun p => p.1 = k) with
      | none => simp [hf] at h
      | some p =>
          simp only [hf, Option.map_some'] at h
          have hp : p ∈ kvs := List.mem_of_find?_eq_some hf
          have hv : v = p.2 := (Option.some.inj h).symm
          have := jsizeKV_of_mem kvs p hp
          rw [hv]
          simp only [jsize]
          omega
  | null => simp [jsProp] at h
  | bool b => simp [jsProp] at h
  | num n => simp [jsProp] at h
  | str s => simp [jsProp] at h

theorem wfJson_prop {a : Json} {k : String} {x : Json}
    (ha : wfJson a = true) (h : jsProp a k = some x) : wfJson x = true := by
  cases a with
  | arr xs =>
      simp only [jsProp] at h
      by_cases hl : k = "length"
      · rw [if_pos hl] at h
        have hv : x = .num (xs.length : Int) := (Option.some.inj h).symm
        subst hv
        simp [wfJson]
      · rw [if_neg hl] at h
        cases hf : (List.range xs.length).find? (fun i => natToString i = k) with
        | none => simp [hf] at h
        | some i =>
            simp only [hf] at h
            rw [wfJson] at ha
            exact wfList_mem xs ha x (List.get?_mem h)
  | obj kvs =>
      simp only [jsProp] at h
      cases hf : kvs.find? (fun p => p.1 = k) with
      | none => simp [hf] at h
      | some p =>
          simp only [hf, Option.map_some'] at h
          rw [wfJson] at ha
          simp only [Bool.and_eq_true] at ha
          have hwf := wfKV_mem kvs ha.2 p (List.mem_of_find?_eq_some hf)
          exact (Option.some.inj h) ▸ hwf
  | null => simp [jsProp] at h
  | bool b => simp [jsProp] at h
  | num n => simp [jsProp] at h
  | str s => simp [jsProp] at h

theorem cleanList_mem : ∀ (xs : List Json), cleanList xs = true →
    ∀ x ∈ xs, cleanJson x = true := by
  intro xs
  induction xs with
  | nil => intro _ x hx; simp at hx
  | cons y ys ih =>
      intro h x hx
      rw [cleanList] at h
      simp only [Bool.and_eq_true] at h
      rcases List.mem_cons.mp hx with rfl | hx
      · exact h.1
      · exact ih h.2 x hx

theorem cleanKV_mem : ∀ (kvs : List (String × Json)), cleanKV kvs = true →
    ∀ p ∈ kvs, cleanJson p.2 = true := by
  intro kvs
  induction kvs with
  | nil => intro _ p hp; simp at hp
  | cons q qs ih =>
      intro h p hp
      rw [cleanKV] at h
      simp only [Bool.and_eq_true] at h
      rcases List.mem_cons.mp hp with rfl | hp
      · exact h.1
      · exact ih h.2 p hp

theorem cleanJson_prop {a : Json} {k : String} {x : Json}
    (ha : cleanJson a = true) (h : jsProp a k = some x) : cleanJson x = true := by
  cases a with
  | arr xs =>
      simp only [jsProp] at h
      by_cases hl : k = "length"
      · rw [if_pos hl] at h
        have hv : x = .num (xs.length : Int) := (Option.some.inj h).symm
        subst hv
        simp [cleanJson]
      · rw [if_neg hl] at h
        cases hf : (List.range xs.length).find? (fun i => natToString i = k) with
        | none => simp [hf] at h
        | some i =>
            simp only [hf] at h
            rw [cleanJson] at ha
            exact cleanList_mem xs ha x (List.get?_mem h)
  | obj kvs =>
      simp only [jsProp] at h
      cases hf : kvs.find? (fun p => p.1 = k) with
      | none => simp [hf] at h
      | some p =>
          simp only [hf, Option.map_some'] at h
          rw [cleanJson] at ha
          simp only [Bool.and_eq_true] at ha
          have hc := cleanKV_mem kvs ha.2 p (List.mem_of_find?_eq_some hf)
          exact (Option.some.inj h) ▸ hc
  | null => simp [jsProp] at h
  | bool b => simp [jsProp] at h
  | num n => simp [jsProp] at h
  | str s => simp [jsProp] at h

theorem jsProp_isSome_of_mem (a : Json) (k : String) (hk : k ∈ jsKeys a) :
    (jsProp a k).isSome = true := by
  cases a with
  | null => simp [jsKeys] at hk
  | bool b => simp [jsKeys] at hk
  | num n => simp [jsKeys] at hk
  | str s => simp [jsKeys] at hk
  | arr xs =>
      simp only [jsKeys] at hk
      obtain ⟨i, hi, rfl⟩ := List.mem_map.mp hk
      simp only [jsProp]
      by_cases hl : natToString i = "length"
      · rw [if_pos hl]; rfl
      · rw [if_neg hl]
        cases hfind : (List.range xs.length).find?
            (fun j => natToString j = natToString i) with
        | none =>
            rw [List.find?_eq_none] at hfind
            have := hfind i hi
            simp at this
        | some j =>
            simp only [hfind]
            rw [List.get?_eq_get (List.mem_range.mp (List.mem_of_find?_eq_some hfind))]
            rfl
  | obj kvs =>
      simp only [jsKeys] at hk
      obtain ⟨p, hp, rfl⟩ := List.mem_map.mp hk
      simp only [jsProp]
      cases hfind : kvs.find? (fun q => q.1 = p.1) with
      | none =>
          rw [List.find?_eq_none] at hfind
          have := hfind p hp
          simp at this
      | some q => simp [hfind]

theorem jsProp_isSome_cases (a : Json) (k : String)
    (h : (jsProp a k).isSome = true) : k ∈ jsKeys a ∨ k = "length" := by
  cases a with
  | null => simp [jsProp] at h
  | bool b => simp [jsProp] at h
  | num n => simp [jsProp] at h
  | str s => simp [jsProp] at h
  | arr xs =>
      simp only [jsProp] at h
      by_cases hl : k = "length"
      · exact Or.inr hl
      · rw [if_neg hl] at h
        refine Or.inl ?_
        cases hfind : (List.range xs.length).find? (fun i => natToString i = k) with
        | none => simp [hfind] at h
        | some i =>
            have hi : i ∈ List.range xs.length := List.mem_of_find?_eq_some hfind
            have hik : natToString i = k := by simpa using List.find?_some hfind
            simp only [jsKeys]
            exact hik ▸ List.mem_map_of_mem _ hi
  | obj kvs =>
      simp only [jsProp] at h
      refine Or.inl ?_
      cases hfind : kvs.find? (fun q => q.1 = k) with
      | none => simp [hfind] at h
      | some q =>
          have hq : q ∈ kvs := List.mem_of_find?_eq_some hfind
          have hqk : q.1 = k := by simpa using List.find?_some hfind
          simp only [jsKeys]
          exact hqk ▸ List.mem_map_of_mem _ hq

theorem jsProp_obj_mem {kvs : List (String × Json)} {k : String}
    (h : (jsProp (.obj kvs) k).isSome = true) : k ∈ jsKeys (.obj kvs) := by
  simp only [jsProp] at h
  cases hfind : kvs.find? (fun q => q.1 = k) with
  | none => simp [hfind] at h
  | some q =>
      have hq : q ∈ kvs := List.mem_of_find?_eq_some hfind
      have hqk : q.1 = k := by simpa using List.find?_some hfind
      simp only [jsKeys]
      exact hqk ▸ List.mem_map_of_mem _ hq

theorem jsKeys_nodup {a : Json} (ha : wfJson a = true) : (jsKeys a).Nodup := by
  cases a with
  | null => simp [jsKeys]
  | bool b => simp [jsKeys]
  | num n => simp [jsKeys]
  | str s => simp [jsKeys]
  | arr xs =>
      simp only [jsKeys]
      exact (List.nodup_range _).map natToString_injective
  | obj kvs =>
      simp only [jsKeys]
      rw [wfJson] at ha
      simp only [Bool.and_eq_true, decide_eq_true_eq] at ha
      exact ha.1

theorem jsKeys_ne_length {v : Json} (hc : cleanJson v = true) :
    ∀ k ∈ jsKeys v, k ≠ "length" := by
  cases v with
  | null => intro k hk; simp [jsKeys] at hk
  | bool b => intro k hk; simp [jsKeys] at hk
  | num n => intro k hk; simp [jsKeys] at hk
  | str s => intro k hk; simp [jsKeys] at hk
  | arr xs =>
      intro k hk
      simp only [jsKeys] at hk
      obtain ⟨i, _, rfl⟩ := List.mem_map.mp hk
      exact natToString_ne_length i
  | obj kvs =>
      intro k hk
      simp only [jsKeys] at hk
      obtain ⟨p, hp, rfl⟩ := List.mem_map.mp hk
      rw [cleanJson] at hc
      simp only [Bool.and_eq_true, List.all_eq_true] at hc
      have h1 := hc.1 p hp
      intro hcontra
      rw [hcontra] at h1
      simp at h1

theorem deepEqualProp_some_some {a b : Json} {k : String} {x y : Json}
    (hp : jsProp a k = some x) (hq : jsProp b k = some y) :
    deepEqualProp a b k = deepEqual x y := by
  rw [deepEqualProp]
  split <;> simp_all

theorem deepEqualProp_none_none {a b : Json} {k : String}
    (hp : jsProp a k = none) (hq : jsProp b k = none) :
    deepEqualProp a b k = true := by
  rw [deepEqualProp]
  split <;> simp_all

theorem deepEqualProp_some_none {a b : Json} {k : String} {x : Json}
    (hp : jsProp a k = some x) (hq : jsProp b k = none) :
    deepEqualProp a b k = false := by
  rw [deepEqualProp]
  split <;> simp_all

theorem deepEqualProp_none_some {a b : Json} {k : String} {y : Json}
    (hp : jsProp a k = none) (hq : jsProp b k = some y) :
    deepEqualProp a b k = false := by
  rw [deepEqualProp]
  split <;> simp_all

theorem deepEqualList_self (xs : List Json)
    (h : ∀ x ∈ xs, deepEqual x x = true) : deepEqualList xs xs = true := by
  induction xs with
  | nil => rw [deepEqualList]
  | cons x xs' ih =>
      rw [deepEqualList]
      simp only [Bool.and_eq_true]
      exact ⟨h x (List.mem_cons_self x xs'),
             ih (fun y hy => h y (List.mem_cons_of_mem _ hy))⟩

theorem deepEqual_self : ∀ v : Json, deepEqual v v = true := by
  suffices h : ∀ (N : Nat) (v : Json), jsize v ≤ N → deepEqual v v = true from
    fun v => h (jsize v) v (Nat.le_refl _)
  intro N
  induction N with
  | zero =>
      intro v hv
      have := jsize_pos v
      omega
  | succ N ih =>
      intro v hv
      cases v with
      | null => rw [deepEqual]
      | bool x => rw [deepEqual]; simp
      | num x => rw [deepEqual]; simp
      | str x => rw [deepEqual]; simp
      | arr xs =>
          rw [deepEqual]
          simp only [Bool.and_eq_true, decide_eq_true_eq]
          refine ⟨trivial, deepEqualList_self xs ?_⟩
          intro x hx
          refine ih x ?_
          have := jsizeL_of_mem xs x hx
          simp only [jsize] at hv
          omega
      | obj kvs =>
          rw [deepEqual]
          simp only [Bool.and_eq_true, decide_eq_true_eq, List.all_eq_true]
          refine ⟨trivial, ?_⟩
          intro k _
          cases hp : jsProp (.obj kvs) k with
          | none => rw [deepEqualProp_none_none hp hp]
          | some x =>
              rw [deepEqualProp_some_some hp hp]
              refine ih x ?_
              have := jsProp_jsize_lt hp
              omega

theorem objLike_all_symm (u v : Json)
    (hnodup : (jsKeys u).Nodup)
    (hneu : ∀ k ∈ jsKeys u, k ≠ "length")
    (hlen : (jsKeys u).length = (jsKeys v).length)
    (hprop : ∀ (k : String) (x y : Json), jsProp u k = some x →
       jsProp v k = some y → deepEqual x y = deepEqual y x)
    (hall : (jsKeys u).all (fun k => deepEqualProp u v k) = true) :
    (jsKeys v).all (fun k => deepEqualProp v u k) = true := by
  rw [List.all_eq_true] at hall ⊢
  have hsub : jsKeys u ⊆ jsKeys v := by
    intro k hk
    obtain ⟨x, hx⟩ := Option.isSome_iff_exists.mp (jsProp_isSome_of_mem u k hk)
    cases hq : jsProp v k with
    | none =>
        have hfalse := deepEqualProp_some_none hx hq
        have htrue := hall k hk
        rw [hfalse] at htrue
        simp at htrue
    | some y =>
        rcases jsProp_isSome_cases v k (by simp [hq]) with hm | hlength
        · exact hm
        · exact absurd hlength (hneu k hk)
  have hperm : (jsKeys u).Perm (jsKeys v) := by
    have hsp := hnodup.subperm hsub
    exact hsp.perm_of_length_le (Nat.le_of_eq hlen.symm)
  intro k hk
  have hku : k ∈ jsKeys u := hperm.mem_iff.mpr hk
  obtain ⟨x, hx⟩ := Option.isSome_iff_exists.mp (jsProp_isSome_of_mem u k hku)
  obtain ⟨y, hy⟩ := Option.isSome_iff_exists.mp (jsProp_isSome_of_mem v k hk)
  have h1 := hall k hku
  rw [deepEqualProp_some_some hx hy] at h1
  rw [deepEqualProp_some_some hy hx]
  rw [← hprop k x y hx hy]
  exact h1

theorem objLike_comm (a b : Json)
    (hwa : wfJson a = true) (hwb : wfJson b = true)
    (hnea : ∀ k ∈ jsKeys a, k ≠ "length")
    (hneb : ∀ k ∈ jsKeys b, k ≠ "length")
    (hprop : ∀ (k : String) (x y : Json), jsProp a k = some x →
       jsProp b k = some y → deepEqual x y = deepEqual y x) :
    ((jsKeys a).length = (jsKeys b).length &&
       (jsKeys a).all (fun k => deepEqualProp a b k)) =
    ((jsKeys b).length = (jsKeys a).length &&
       (jsKeys b).all (fun k => deepEqualProp b a k)) := by
  by_cases hlen : (jsKeys a).length = (jsKeys b).length
  · rw [decide_eq_true hlen, decide_eq_true hlen.symm]
    simp only [Bool.true_and]
    have hprop' : ∀ (k : String) (x y : Json), jsProp b k = some x →
        jsProp a k = some y → deepEqual x y = deepEqual y x := by
      intro k x y hx hy
      exact (hprop k y x hy hx).symm
    cases h1 : (jsKeys a).all (fun k => deepEqualProp a b k) with
    | true =>
        rw [objLike_all_symm a b (jsKeys_nodup hwa) hnea hlen hprop h1]
    | false =>
        cases h2 : (jsKeys b).all (fun k => deepEqualProp b a k) with
        | false => rfl
        | true =>
            have := objLike_all_symm b a (jsKeys_nodup hwb) hneb hlen.symm hprop' h2
            rw [this] at h1
            exact h1.symm
  · rw [decide_eq_false hlen, decide_eq_false (fun h => hlen h.symm)]
    simp

theorem deepEqualList_comm :
    ∀ xs ys : List Json,
      (∀ x y, x ∈ xs → y ∈ ys → deepEqual x y = deepEqual y x) →
      xs.length = ys.length →
      deepEqualList xs ys = deepEqualList ys xs := by
  intro xs
  induction xs with
  | nil =>
      intro ys _ hlen
      cases ys with
      | nil => rfl
      | cons y ys' => simp at hlen
  | cons x xs' ih =>
      intro ys hcomm hlen
      cases ys with
      | nil => simp at hlen
      | cons y ys' =>
          rw [deepEqualList, deepEqualList]
          rw [hcomm x y (List.mem_cons_self x xs') (List.mem_cons_self y ys')]
          rw [ih ys' (fun a b ha hb =>
                hcomm a b (List.mem_cons_of_mem _ ha) (List.mem_cons_of_mem _ hb))
              (by simpa using hlen)]

theorem deepEqual_comm_aux :
    ∀ (N : Nat) (v w : Json), jsize v + jsize w ≤ N →
      wfJson v = true → wfJson w = true →
      cleanJson v = true → cleanJson w = true →
      deepEqual v w = deepEqual w v := by
  intro N
  induction N with
  | zero =>
      intro v w h _ _ _ _
      have := jsize_pos v
      have := jsize_pos w
      omega
  | succ N ih =>
      intro v w hN hwv hww hcv hcw
      have hprop : ∀ (k : String) (x y : Json), jsProp v k = some x →
          jsProp w k = some y → deepEqual x y = deepEqual y x := by
        intro k x y hx hy
        refine ih x y ?_ (wfJson_prop hwv hx) (wfJson_prop hww hy)
          (cleanJson_prop hcv hx) (cleanJson_prop hcw hy)
        have h1 := jsProp_jsize_lt hx
        have h2 := jsProp_jsize_lt hy
        omega
      cases v with
      | null =>
          cases w with
          | null => rfl
          | bool y => simp [deepEqual]
          | num y => simp [deepEqual]
          | str y => simp [deepEqual]
          | arr ys => simp [deepEqual]
          | obj ys => simp [deepEqual]
      | bool x =>
          cases w with
          | null => simp [deepEqual]
          | bool y =>
              rw [deepEqual, deepEqual]
              exact decide_eq_decide.mpr ⟨Eq.symm, Eq.symm⟩
          | num y => simp [deepEqual]
          | str y => simp [deepEqual]
          | arr ys => simp [deepEqual]
          | obj ys => simp [deepEqual]
      | num x =>
          cases w with
          | null => simp [deepEqual]
          | bool y => simp [deepEqual]
          | num y =>
              rw [deepEqual, deepEqual]
              exact decide_eq_decide.mpr ⟨Eq.symm, Eq.symm⟩
          | str y => simp [deepEqual]
          | arr ys => simp [deepEqual]
          | obj ys => simp [deepEqual]
      | str x =>
          cases w with
          | null => simp [deepEqual]
          | bool y => simp [deepEqual]
          | num y => simp [deepEqual]
          | str y =>
              rw [deepEqual, deepEqual]
              exact decide_eq_decide.mpr ⟨Eq.symm, Eq.symm⟩
          | arr ys => simp [deepEqual]
          | obj ys => simp [deepEqual]
      | arr xs =>
          cases w with
          | null => simp [deepEqual]
          | bool y => simp [deepEqual]
          | num y => simp [deepEqual]
          | str y => simp [deepEqual]
          | arr ys =>
              rw [deepEqual, deepEqual]
              by_cases hlen : xs.length = ys.length
              · rw [decide_eq_true hlen, decide_eq_true hlen.symm]
                simp only [Bool.true_and]
                refine deepEqualList_comm xs ys ?_ hlen
                intro x y hx hy
                refine ih x y ?_ ?_ ?_ ?_ ?_
                · have h1 := jsizeL_of_mem xs x hx
                  have h2 := jsizeL_of_mem ys y hy
                  simp only [jsize] at hN
                  omega
                · rw [wfJson] at hwv
                  exact wfList_mem xs hwv x hx
                · rw [wfJson] at hww
                  exact wfList_mem ys hww y hy
                · rw [cleanJson] at hcv
                  exact cleanList_mem xs hcv x hx
                · rw [cleanJson] at hcw
                  exact cleanList_mem ys hcw y hy
              · rw [decide_eq_false hlen, decide_eq_false (fun h => hlen h.symm)]
                simp
          | obj ys =>
              rw [deepEqual, deepEqual]
              exact objLike_comm (.arr xs) (.obj ys) hwv hww
                (jsKeys_ne_length hcv) (jsKeys_ne_length hcw) hprop
      | obj xs =>
          cases w with
          | null => simp [deepEqual]
          | bool y => simp [deepEqual]
          | num y => simp [deepEqual]
          | str y => simp [deepEqual]
          | arr ys =>
              rw [deepEqual, deepEqual]
              exact objLike_comm (.obj xs) (.arr ys) hwv hww
                (jsKeys_ne_length hcv) (jsKeys_ne_length hcw) hprop
          | obj ys =>
              rw [deepEqual, deepEqual]
              exact objLike_comm (.obj xs) (.obj ys) hwv hww
                (jsKeys_ne_length hcv) (jsKeys_ne_length hcw) hprop

theorem deepEqual_obj_keys :
    ∀ (akvs bkvs : List (String × Json)),
      wfJson (.obj akvs) = true → wfJson (.obj bkvs) = true →
      cleanJson (.obj akvs) = true → cleanJson (.obj bkvs) = true →
      deepEqual (.obj akvs) (.obj bkvs) = true →
      (∀ k, k ∈ jsKeys (.obj akvs) ↔ k ∈ jsKeys (.obj bkvs)) ∧
      (∀ (k : String) (x y : Json), jsProp (.obj akvs) k = some x →
         jsProp (.obj bkvs) k = some y → deepEqual x y = true) := by
  intro akvs bkvs hwa _hwb _hca _hcb heq
  rw [deepEqual] at heq
  simp only [Bool.and_eq_true, decide_eq_true_eq, List.all_eq_true] at heq
  obtain ⟨hlen, hall⟩ := heq
  have hsub : jsKeys (.obj akvs) ⊆ jsKeys (.obj bkvs) := by
    intro k hk
    obtain ⟨x, hx⟩ := Option.isSome_iff_exists.mp (jsProp_isSome_of_mem _ k hk)
    cases hq : jsProp (.obj bkvs) k with
    | none =>
        have hfalse := deepEqualProp_some_none hx hq
        have htrue := hall k hk
        rw [hfalse] at htrue
        simp at htrue
    | some y => exact jsProp_obj_mem (by simp [hq])
  have hperm : (jsKeys (.obj akvs)).Perm (jsKeys (.obj bkvs)) := by
    have hsp := (jsKeys_nodup hwa).subperm hsub
    exact hsp.perm_of_length_le (Nat.le_of_eq hlen.symm)
  refine ⟨fun k => hperm.mem_iff, ?_⟩
  intro k x y hx hy
  have hk : k ∈ jsKeys (.obj akvs) := jsProp_obj_mem (by simp [hx])
  have h1 := hall k hk
  rw [deepEqualProp_some_some hx hy] at h1
  exact h1

theorem natDigits_zero : natDigits 0 = [0] := by
  rw [natDigits]
  rfl

theorem natToString_zero : natToString 0 = "0" := by
  rw [natToString, natDigits_zero]
  rfl

/-- C4 counterexample: the deep-equality predicate of the criterion
evaluator is not symmetric.  The object with the single key `length` and
value 1 compares equal to the one-element array `[5]`: both key lists have
length one, and the walk over the object keys looks up `length` on the
array, which hits the array's own `length` property, 1.  The reverse
comparison walks the array key `0`, which the object lacks, and returns
false. -/
theorem deepEqual_symm_counterexample :
    deepEqual (.obj [("length", .num 1)]) (.arr [.num 5]) = true ∧
    deepEqual (.arr [.num 5]) (.obj [("length", .num 1)]) = false := by
  have hk : jsKeys (.arr [Json.num 5]) = ["0"] := by
    simp [jsKeys, List.range_succ, natToString_zero]
  constructor
  · rw [deepEqual]
    have h1 : jsProp (.obj [("length", Json.num 1)]) "length" = some (.num 1) := by
      simp [jsProp]
    have h2 : jsProp (.arr [Json.num 5]) "length" = some (.num 1) := by
      simp [jsProp]
    have h3 := deepEqualProp_some_some h1 h2
    rw [deepEqual] at h3
    simp only [decide_eq_true_eq] at h3
    rw [hk]
    simp [jsKeys, h3]
  · rw [deepEqual]
    have h1 : jsProp (.arr [Json.num 5]) "0" = some (.num 5) := by
      simp [jsProp, List.range_succ, natToString_zero]
    have h2 : jsProp (.obj [("length", Json.num 1)]) "0" = none := by
      simp [jsProp]
    have h3 := deepEqualProp_some_none h1 h2
    rw [hk]
    simp [jsKeys, h3]

/-- C4 (amended): the deep-equality predicate is reflexive on every value.
On well-formed values (JavaScript objects cannot carry duplicate keys)
none of whose objects use `length` or `__proto__` as a key it is also
symmetric, and two such objects compare equal only when they have the same
key set with pairwise deep-equal values.  Without that restriction
symmetry fails: an object with a `length` key can compare equal to an
array that does not compare equal to it (the array bracket lookup of
`length` hits its own length property), and an object keyed `__proto__`
makes the comparison read the inherited prototype object. -/
theorem deepEqual_refl_symm_keys_amended :
    (∀ v : Json, deepEqual v v = true) ∧
    (∀ v w : Json, wfJson v = true → wfJson w = true →
       cleanJson v = true → cleanJson w = true →
       deepEqual v w = deepEqual w v) ∧
    (∀ akvs bkvs : List (String × Json),
       wfJson (.obj akvs) = true → wfJson (.obj bkvs) = true →
       cleanJson (.obj akvs) = true → cleanJson (.obj bkvs) = true →
       deepEqual (.obj akvs) (.obj bkvs) = true →
       (∀ k, k ∈ jsKeys (.obj akvs) ↔ k ∈ jsKeys (.obj bkvs)) ∧
       (∀ (k : String) (x y : Json), jsProp (.obj akvs) k = some x →
          jsProp (.obj bkvs) k = some y → deepEqual x y = true)) :=
  ⟨deepEqual_self,
   fun v w hv hw hcv hcw =>
     deepEqual_comm_aux (jsize v + jsize w) v w (Nat.le_refl _) hv hw hcv hcw,
   deepEqual_obj_keys⟩

/-- C4 witness: reflexivity and symmetry applied at concrete well-formed,
clean values. -/
theorem deepEqual_refl_symm_keys_amended_witness :
    deepEqual (.obj [("a", .num 1)]) (.obj [("a", .num 1)]) = true ∧
    deepEqual (.obj [("a", .num 1)]) (.obj [("b", .num 2)]) =
      deepEqual (.obj [("b", .num 2)]) (.obj [("a", .num 1)]) :=
  ⟨deepEqual_refl_symm_keys_amended.1 _,
   deepEqual_refl_symm_keys_amended.2.1 _ _
     (by simp [wfJson, wfKV]) (by simp [wfJson, wfKV])
     (by simp [cleanJson, cleanKV]) (by simp [cleanJson, cleanKV])⟩
